import Mathlib

set_option maxRecDepth 8000

deriving instance DecidableEq for Except

/-!
Verification of the `si-prefix` library (file `si_prefix/__init__.py`).

The library is pure numeric-and-text code.  We embed it shallowly:

* Python floats are modelled as exact rationals (`ℚ`); the only
  transcendental operation, `int(log10(value))`, is modelled by the exact
  integer truncation of the real base-10 logarithm of the (rational) input
  (`ilog10` below).  This is the idealisation of `log10` the code's own
  comments assume; the mantissa-overflow correction step of `split` is kept
  verbatim and still fires (at exact powers `10^(-3k)`).
* Python `str` values are modelled as `String` / `List Char`.
* The two regular expressions that `si_parse` compiles are embedded as
  backtracking matchers (`m1`, `m2`) over `List Char` whose alternatives are
  produced in exactly Python's preference order (greedy quantifiers longest
  first, optional groups present first, leftmost choice point dominates);
  the first complete match, if any, provides the captured groups, as in
  `re.match`.  Character classes `\d` and `\s` are modelled by their ASCII
  parts (the claims under study only involve ASCII digits and spaces, plus
  the micro sign which is in neither class).
* Exceptions are modelled by `Except`/`Option` results: `prefix` returns
  `Except String Char`, `si_parse` returns `Except PErr ℚ` where `PErr`
  distinguishes the `AttributeError` on a failed second match, the
  `AssertionError` on digit-free matches, and the `ValueError` raised by
  `float()`.
* `str.format` with a caller-supplied template is modelled, for the one
  claim that needs arbitrary templates, by an arbitrary rendering function
  `ℚ → List Char → Option (List Char)` where `none` stands for a raised
  `ValueError`; the default templates `'{value:.2f} {prefix}'` and
  `'{value:.2f}e{expof10}'` are modelled concretely (`defaultFormat`,
  `defaultExpFormat`), with `'{:.2f}'` rendering modelled as
  round-half-to-even at two decimals (`formatFixed2`).
-/

namespace SiPrefix

/-! ### The prefix table (`SI_PREFIX_UNITS`, line 34) -/

/-- Model of `SI_PREFIX_UNITS = u"yzafpnµm kMGTPEZY"`. -/
def SI_PREFIX_UNITS : String := "yzafpnµm kMGTPEZY"

/-- The table as a list of characters (`str` indexing/iteration in Python). -/
def siUnits : List Char := SI_PREFIX_UNITS.data

/-- Model of `prefix_levels = (len(SI_PREFIX_UNITS) - 1) // 2`, as computed in
`prefix`, `si_parse` and `si_prefix_expof10`. -/
def prefixLevels : ℕ := (siUnits.length - 1) / 2

/-! ### Integer parts of base-10 logarithms (model of `int(log10(v))`) -/

/-- Fuel-driven base-10 integer logarithm: for `1 ≤ n ≤ fuel`,
`nlog10 fuel n` is the largest `k` with `10 ^ k ≤ n`.  (Fuel keeps the
recursion structural so that the kernel can evaluate it.) -/
def nlog10 : ℕ → ℕ → ℕ
  | 0, _ => 0
  | f + 1, n => if n < 10 then 0 else nlog10 f (n / 10) + 1

/-- `natLog10 n` = largest `k` with `10 ^ k ≤ n` (for `n ≥ 1`). -/
def natLog10 (n : ℕ) : ℕ := nlog10 n n

/-- Exact model of `int(log10(value))` for a positive rational `value`:
the real `log10` truncated toward zero.  For `value ≥ 1` this is
`⌊log10 value⌋`; for `0 < value < 1` it is `-⌊log10 (1/value)⌋`. -/
def ilog10 (q : ℚ) : ℤ :=
  if 1 ≤ q then (natLog10 ⌊q⌋.toNat : ℤ) else -(natLog10 ⌊1 / q⌋.toNat : ℤ)

/-! ### `split` (lines 49–98) -/

/-- Lines 87–90 of `split`: the exponent estimate rounded to a multiple of
3 (`//` is Python floor division, `Int.fdiv`). -/
def splitExp (e0 : ℤ) : ℤ :=
  if 0 < e0 then (Int.fdiv e0 3) * 3
  else if e0 < 0 then (Int.fdiv (-e0 + 3) 3) * (-3)
  else e0

/-- Lines 92–97 of `split`: rescale by `10 ** (-expof10)` and apply the
mantissa-overflow correction step. -/
def splitRescale (expof10 : ℤ) (v : ℚ) : ℚ × ℤ :=
  let value := v * (10 : ℚ) ^ (-expof10)
  if 1000 ≤ value then (value / 1000, expof10 + 3) else (value, expof10)

/-- Body of `split` for a positive value (lines 86–97), given the exponent
estimate `e0 = int(log10(value))`. -/
def splitBody (e0 : ℤ) (v : ℚ) : ℚ × ℤ := splitRescale (splitExp e0) v

/-- Model of `split(value)` (lines 49–98), with the logarithm left abstract
as `lg`: sign is recorded and re-applied, zero returns `(0., 0)`
immediately — before any use of `lg` — and positive values go through
`splitBody`. -/
def splitWithLog (lg : ℚ → ℤ) (value : ℚ) : ℚ × ℤ :=
  if value < 0 then
    let p := splitBody (lg (-value)) (-value)
    (-p.1, p.2)
  else if value = 0 then (0, 0)
  else splitBody (lg value) value

/-- Model of `split(value)` (lines 49–98). -/
def split : ℚ → ℚ × ℤ := splitWithLog ilog10

/-! ### `prefix` (lines 101–117) -/

/-- Model of `prefix(expof10)` (lines 101–117).  `//` is Python floor
division (`Int.fdiv`); the raised `ValueError` becomes `Except.error`. -/
def prefixChar (expof10 : ℤ) : Except String Char :=
  let si_level := Int.fdiv expof10 3
  if prefixLevels < si_level.natAbs then
    .error "Exponent out range of available prefixes."
  else
    .ok (siUnits.getD (si_level + prefixLevels).toNat ' ')

/-- Model of `si_prefix_expof10(si_unit)` (lines 293–307).
`SI_PREFIX_UNITS.index` is `List.indexOf` (all table entries are distinct;
the claims only apply it to characters of the table). -/
def si_prefix_expof10 (si_unit : Char) : ℤ :=
  3 * ((siUnits.indexOf si_unit : ℤ) - prefixLevels)

/-- Model of `si_prefix_scale(si_unit)` (lines 278–290). -/
def si_prefix_scale (si_unit : Char) : ℚ :=
  (10 : ℚ) ^ si_prefix_expof10 si_unit

/-! ### Decimal rendering (`'{:.2f}'`, `str(int)`) -/

/-- The decimal digit character for `d < 10`. -/
def digitChar (d : ℕ) : Char := Char.ofNat (48 + d)

/-- Round half to even (the rounding used when formatting floats). -/
def rhe (x : ℚ) : ℤ :=
  if x - ⌊x⌋ < 1 / 2 then ⌊x⌋
  else if 1 / 2 < x - ⌊x⌋ then ⌊x⌋ + 1
  else if 2 ∣ ⌊x⌋ then ⌊x⌋ else ⌊x⌋ + 1

/-- Fuel-driven decimal digits accumulator (fuel keeps it structural). -/
def natStrF : ℕ → ℕ → List Char → List Char
  | 0, _, acc => acc
  | f + 1, n, acc =>
    if n < 10 then digitChar n :: acc
    else natStrF f (n / 10) (digitChar (n % 10) :: acc)

/-- Decimal digit string of a natural number (model of `str` on a
nonnegative integer). -/
def natStr (n : ℕ) : List Char := natStrF (n + 1) n []

/-- Two-digit rendering of `n < 100` (the `.2f` fractional part). -/
def pad2 (n : ℕ) : List Char := [digitChar (n / 10), digitChar (n % 10)]

/-- Model of `'{:.2f}'.format(q)`: sign, integer digits of the
half-to-even rounding of `100·|q|` divided by 100, a point, two digits. -/
def formatFixed2 (q : ℚ) : List Char :=
  let n := (rhe (|q| * 100)).toNat
  (if q < 0 then ['-'] else []) ++ natStr (n / 100) ++ '.' :: pad2 (n % 100)

/-- Model of `str` on a Python `int`. -/
def intStr (z : ℤ) : List Char :=
  if z < 0 then '-' :: natStr z.natAbs else natStr z.toNat

/-! ### `si_format` (lines 120–234) -/

/-- Python `str.isspace` / `\s` characters (ASCII part). -/
def isPySpace (c : Char) : Bool :=
  c = ' ' || c = '\t' || c = '\n' || c = '\r' || c = '\x0b' || c = '\x0c'

/-- Model of `str.rstrip()` (used on the prefix character, line 231). -/
def pyRstrip (l : List Char) : List Char :=
  (l.reverse.dropWhile isPySpace).reverse

/-- The default template `'{value:.2f} {prefix}'.format(...)`. -/
def defaultFormat (value : ℚ) (p : List Char) : List Char :=
  formatFixed2 value ++ ' ' :: p

/-- The default template `'{value:.2f}e{expof10}'.format(...)`. -/
def defaultExpFormat (value : ℚ) (e : List Char) : List Char :=
  formatFixed2 value ++ 'e' :: e

/-- The `expof10` argument of the fallback template:
`sign + str(expof10)` with `sign = '+' if expof10 > 0 else ''` (line 233). -/
def expArg (expof10 : ℤ) : List Char :=
  (if 0 < expof10 then ['+'] else []) ++ intStr expof10

/-- Model of `si_format(value, format_str, exp_format_str)` (lines 229–234)
with the first template abstracted as a rendering function `fmt` (`none`
models a raised `ValueError`, which the `try/except ValueError` catches, as
it catches the `ValueError` of `prefix`); the fallback template is the
default one. -/
def si_format_tpl (fmt : ℚ → List Char → Option (List Char)) (v : ℚ) :
    String :=
  let p := split v
  match (prefixChar p.2).toOption >>= fun c => fmt p.1 (pyRstrip [c]) with
  | some s => String.mk s
  | none => String.mk (defaultExpFormat p.1 (expArg p.2))

/-- Model of `si_format(value)` with both default templates. -/
def si_format (v : ℚ) : String :=
  si_format_tpl (fun q p => some (defaultFormat q p)) v

/-- Observer: did an `Except` computation raise? -/
def isErrorB {ε α : Type} : Except ε α → Bool
  | .error _ => true
  | .ok _ => false

/-! ### Backtracking matchers for the two regular expressions of `si_parse`

A matcher of type `P α` sends the remaining input to the list of possible
(match value, rest) outcomes, ordered by Python's backtracking preference:
the head of the list of complete matches is the match `re.match` produces. -/

/-- Outcomes of a matcher fragment, in preference order. -/
def P (α : Type) : Type := List Char → List (α × List Char)

/-- Succeed without consuming input. -/
def pureP {α : Type} (a : α) : P α := fun s => [(a, s)]

/-- Sequencing; the preference order of `x` dominates (leftmost choice
point first), as in a backtracking regex engine. -/
def bindP {α β : Type} (x : P α) (f : α → P β) : P β :=
  fun s => (x s).flatMap (fun p => f p.1 p.2)

/-- A single character satisfying `p` (a character class). -/
def chIf (p : Char → Bool) : P Char := fun s =>
  match s with
  | [] => []
  | c :: r => if p c then [(c, r)] else []

/-- Longest run of characters satisfying `p`, and the rest. -/
def takeRun (p : Char → Bool) : List Char → List Char × List Char
  | [] => ([], [])
  | c :: r =>
    if p c then
      let t := takeRun p r
      (c :: t.1, t.2)
    else ([], c :: r)

/-- All ways to give back a suffix of a greedy run, longest kept first. -/
def greedyAlts : List Char → List Char → List (List Char × List Char)
  | [], rest => [([], rest)]
  | c :: run, rest =>
    ((greedyAlts run rest).map fun p => (c :: p.1, p.2)) ++ [([], c :: run ++ rest)]

/-- Greedy `p*` over a character class: longest match first, then
backtracking alternatives down to the empty match. -/
def manyG (p : Char → Bool) : P (List Char) := fun s =>
  let t := takeRun p s
  greedyAlts t.1 t.2

/-- Greedy `p+` over a character class. -/
def many1G (p : Char → Bool) : P (List Char) :=
  bindP (chIf p) fun c => bindP (manyG p) fun ds => pureP (c :: ds)

/-- Greedy `r?`: the present alternative is preferred. -/
def optG {α : Type} (x : P α) : P (Option α) := fun s =>
  ((x s).map fun p => (some p.1, p.2)) ++ [(none, s)]

/-- End of input (`$`). -/
def endP : P Unit := fun s =>
  match s with
  | [] => [((), [])]
  | _ => []

/-- `re.match` anchored at the start: the first complete match, if any. -/
def runRe {α : Type} (p : P α) (s : List Char) : Option α :=
  ((p s).head?).map Prod.fst

/-- The outcome Python's backtracking prefers: the head of the outcome
list. -/
def firstRes {α : Type} (x : P α) (s : List Char) (a : α)
    (rest : List Char) : Prop :=
  ∃ t, x s = (a, rest) :: t

/-- Character class `[\+\-]`. -/
def isSign (c : Char) : Bool := c = '+' || c = '-'

/-- Character class `\d` (ASCII decimal digits). -/
def isDigit0 (c : Char) : Bool := c.isDigit

/-- The regex `.` metacharacter: any character but a newline. -/
def isDotAny (c : Char) : Bool := c != '\n'

/-- Character class `[eE]`. -/
def isEe (c : Char) : Bool := c = 'e' || c = 'E'

/-- The class `[yzafpnµm kMGTPEZY]` built from `SI_PREFIX_UNITS`. -/
def isSiUnit (c : Char) : Bool := siUnits.contains c

/-- The group `(?P<integer>[\+\-]?\d+)`, capturing its text. -/
def intGroup : P (List Char) :=
  bindP (optG (chIf isSign)) fun sg =>
  bindP (many1G isDigit0) fun ds =>
  pureP (match sg with | some c => c :: ds | none => ds)

/-- The group `(?P<fraction>.\d+)` — note the unescaped `.`, which matches
any character (except a newline), exactly as in the source. -/
def fracGroup : P (List Char) :=
  bindP (chIf isDotAny) fun c =>
  bindP (many1G isDigit0) fun ds =>
  pureP (c :: ds)

/-- The fragment `[eE]\s*(?P<expof10>[\+\-]?\d+)` of `CRE_10E_NUMBER`. -/
def expGroup : P (List Char) :=
  bindP (chIf isEe) fun _ =>
  bindP (manyG isPySpace) fun _ =>
  bindP (optG (chIf isSign)) fun sg =>
  bindP (many1G isDigit0) fun ds =>
  pureP (match sg with | some c => c :: ds | none => ds)

/-- Captured groups of `CRE_10E_NUMBER`. -/
structure G1 where
  integer : Option (List Char)
  fraction : Option (List Char)
  expof10 : Option (List Char)
deriving DecidableEq, Repr

/-- `CRE_10E_NUMBER` (lines 256–258):
`^\s*(?P<integer>[\+\-]?\d+)?(?P<fraction>.\d+)?\s*([eE]\s*(?P<expof10>[\+\-]?\d+))?$`. -/
def m1 : P G1 :=
  bindP (manyG isPySpace) fun _ =>
  bindP (optG intGroup) fun i =>
  bindP (optG fracGroup) fun f =>
  bindP (manyG isPySpace) fun _ =>
  bindP (optG expGroup) fun e =>
  bindP endP fun _ =>
  pureP ⟨i, f, e⟩

/-- Captured groups of the local `CRE_SI_NUMBER`. -/
structure G2 where
  integer : Option (List Char)
  fraction : Option (List Char)
  si_unit : Option Char
deriving DecidableEq, Repr

/-- The local `CRE_SI_NUMBER` (lines 259–261):
`^\s*(?P<number>(?P<integer>[\+\-]?\d+)?(?P<fraction>.\d+)?)\s*(?P<si_unit>[yzafpnµm kMGTPEZY])?\s*$`. -/
def m2 : P G2 :=
  bindP (manyG isPySpace) fun _ =>
  bindP (optG intGroup) fun i =>
  bindP (optG fracGroup) fun f =>
  bindP (manyG isPySpace) fun _ =>
  bindP (optG (chIf isSiUnit)) fun u =>
  bindP (manyG isPySpace) fun _ =>
  bindP endP fun _ =>
  pureP ⟨i, f, u⟩

/-- The `number` group of `CRE_SI_NUMBER`: integer and fraction texts
concatenated (they are adjacent in the pattern). -/
def g2number (g : G2) : List Char := g.integer.getD [] ++ g.fraction.getD []

/-! ### Model of Python `float(str)` -/

/-- Value of a decimal digit string. -/
def digitsVal (l : List Char) : ℕ :=
  l.foldl (fun a c => 10 * a + (c.toNat - 48)) 0

/-- Strip leading and trailing whitespace (as `float` does). -/
def pyStrip (l : List Char) : List Char :=
  ((l.dropWhile isPySpace).reverse.dropWhile isPySpace).reverse

/-- Optional sign at the head of a float literal. -/
def pySign (l : List Char) : ℤ × List Char :=
  match l with
  | c :: r => if c = '+' then (1, r) else if c = '-' then (-1, r) else (1, l)
  | [] => (1, [])

/-- The exponent tail of a float literal: empty, or `e`/`E`, an optional
sign and at least one digit, up to the end. -/
def pyExpTail : List Char → Option ℤ
  | [] => some 0
  | c :: r =>
    if isEe c then
      let s := pySign r
      let d := takeRun isDigit0 s.2
      if d.1 = [] ∨ d.2 ≠ [] then none else some (s.1 * (digitsVal d.1 : ℤ))
    else none

/-- Model of Python `float` applied to a string: `none` models a raised
`ValueError`.  Accepts optional surrounding whitespace, an optional sign,
digits with an optional point and fractional digits (at least one digit in
total), and an optional exponent.  (`inf`/`nan` spellings and digit-group
underscores are not modelled; no claim involves them.) -/
def pyFloat (l : List Char) : Option ℚ :=
  let t0 := pyStrip l
  let s := pySign t0
  let ipart := takeRun isDigit0 s.2
  let fpart :=
    match ipart.2 with
    | '.' :: r => takeRun isDigit0 r
    | _ => ([], ipart.2)
  if ipart.1 = [] ∧ fpart.1 = [] then none
  else
    match pyExpTail fpart.2 with
    | none => none
    | some e =>
      some ((s.1 : ℚ) * ((digitsVal ipart.1 : ℚ) +
        (digitsVal fpart.1 : ℚ) / 10 ^ fpart.1.length) * (10 : ℚ) ^ e)

/-! ### `si_parse` (lines 236–275) -/

/-- The exceptions `si_parse` can raise: the `AttributeError` from
`match.group` when the second regex did not match, the `AssertionError`
from a digit-free match, and the `ValueError` from `float`. -/
inductive PErr where
  | attrError
  | assertError
  | valueError
deriving DecidableEq, Repr

/-- Model of `si_parse(value)` (lines 236–275): try `CRE_10E_NUMBER`,
assert a digit group and convert the whole string with `float`; otherwise
match `CRE_SI_NUMBER`, assert a digit group, resolve the scale of the
captured unit (a missing unit meaning `' '`), and scale `float` of the
`number` group. -/
def si_parse (s : String) : Except PErr ℚ :=
  match runRe m1 s.data with
  | some g =>
    if g.integer.isSome || g.fraction.isSome then
      match pyFloat s.data with
      | some q => .ok q
      | none => .error .valueError
    else .error .assertError
  | none =>
    match runRe m2 s.data with
    | none => .error .attrError
    | some g =>
      if g.integer.isSome || g.fraction.isSome then
        let u := g.si_unit.getD ' '
        let scale := (10 : ℚ) ^ (3 * ((siUnits.indexOf u : ℤ) - prefixLevels))
        match pyFloat (g2number g) with
        | some q => .ok (q * scale)
        | none => .error .valueError
      else .error .assertError

/-! ### Theorems -/

theorem prefixLevels_eq : prefixLevels = 8 := rfl

/-! #### Bounds for the integer logarithm -/

theorem nlog10_spec : ∀ f n, n ≤ f → 1 ≤ n →
    10 ^ nlog10 f n ≤ n ∧ n < 10 ^ (nlog10 f n + 1) := by
  intro f
  induction f with
  | zero => intro n h1 h2; omega
  | succ f ih =>
    intro n h1 h2
    by_cases h : n < 10
    · rw [show nlog10 (f + 1) n = 0 by simp [nlog10, h]]
      norm_num
      omega
    · have hd : 1 ≤ n / 10 := by omega
      have hlt : n / 10 < n := Nat.div_lt_self (by omega) (by norm_num)
      obtain ⟨hl, hr⟩ := ih (n / 10) (by omega) hd
      rw [show nlog10 (f + 1) n = nlog10 f (n / 10) + 1 by simp [nlog10, h]]
      set L := nlog10 f (n / 10) with hL
      have hmod := Nat.div_add_mod n 10
      have hm : n % 10 < 10 := Nat.mod_lt _ (by norm_num)
      constructor
      · have : 10 ^ (L + 1) = 10 * 10 ^ L := by ring
        omega
      · have : 10 ^ (L + 1 + 1) = 10 * 10 ^ (L + 1) := by ring
        omega

theorem natLog10_bounds {n : ℕ} (h : 1 ≤ n) :
    10 ^ natLog10 n ≤ n ∧ n < 10 ^ (natLog10 n + 1) :=
  nlog10_spec n n le_rfl h

theorem natLog10_pos {n : ℕ} (h : 10 ≤ n) : 1 ≤ natLog10 n := by
  rcases natLog10_bounds (by omega : 1 ≤ n) with ⟨_, hr⟩
  by_contra hc
  have h0 : natLog10 n = 0 := by omega
  rw [h0] at hr
  norm_num at hr
  omega

theorem ilog10_of_one_le (q : ℚ) (h : 1 ≤ q) :
    ilog10 q = (natLog10 ⌊q⌋.toNat : ℤ) := by
  rw [ilog10, if_pos h]

theorem ilog10_nonneg_of_one_le (q : ℚ) (h : 1 ≤ q) : 0 ≤ ilog10 q := by
  rw [ilog10_of_one_le q h]
  exact Int.natCast_nonneg _

theorem zpow_ilog10_le (q : ℚ) (h : 1 ≤ q) : (10 : ℚ) ^ ilog10 q ≤ q := by
  have hfl : (1 : ℤ) ≤ ⌊q⌋ := Int.le_floor.mpr (by exact_mod_cast h)
  have hn : 1 ≤ ⌊q⌋.toNat := by omega
  obtain ⟨hl, _⟩ := natLog10_bounds hn
  rw [ilog10_of_one_le q h, zpow_natCast]
  calc (10 : ℚ) ^ natLog10 ⌊q⌋.toNat = ((10 ^ natLog10 ⌊q⌋.toNat : ℕ) : ℚ) := by
        push_cast; ring
    _ ≤ ((⌊q⌋.toNat : ℕ) : ℚ) := by exact_mod_cast hl
    _ = ((⌊q⌋ : ℤ) : ℚ) := by
        have h2 : (⌊q⌋.toNat : ℤ) = ⌊q⌋ := by omega
        exact_mod_cast congrArg (fun z : ℤ => (z : ℚ)) h2
    _ ≤ q := Int.floor_le q

theorem lt_zpow_ilog10_succ (q : ℚ) (h : 1 ≤ q) :
    q < (10 : ℚ) ^ (ilog10 q + 1) := by
  have hfl : (1 : ℤ) ≤ ⌊q⌋ := Int.le_floor.mpr (by exact_mod_cast h)
  have hn : 1 ≤ ⌊q⌋.toNat := by omega
  obtain ⟨_, hr⟩ := natLog10_bounds hn
  rw [ilog10_of_one_le q h]
  have : ((ilog10 q : ℤ) : ℚ) = 0 ∨ True := Or.inr trivial
  calc q < (⌊q⌋ : ℚ) + 1 := Int.lt_floor_add_one q
    _ ≤ ((10 ^ (natLog10 ⌊q⌋.toNat + 1) : ℕ) : ℚ) := by
        have h1 : (⌊q⌋ : ℚ) = ((⌊q⌋.toNat : ℕ) : ℚ) := by
          congr 1
          omega
        rw [h1]
        exact_mod_cast hr
    _ = (10 : ℚ) ^ ((natLog10 ⌊q⌋.toNat : ℤ) + 1) := by
        rw [show ((natLog10 ⌊q⌋.toNat : ℤ) + 1) = ((natLog10 ⌊q⌋.toNat + 1 : ℕ) : ℤ) by push_cast; ring,
          zpow_natCast]
        push_cast
        ring

theorem ilog10_of_lt_one (q : ℚ) (h : ¬ 1 ≤ q) :
    ilog10 q = -(natLog10 ⌊1 / q⌋.toNat : ℤ) := by
  rw [ilog10, if_neg h]

/-- For `0 < q < 1`, writing `k = natLog10 ⌊1/q⌋.toNat` (so `ilog10 q = -k`):
`10^(-(k+1)) < q ≤ 10^(-k)`. -/
theorem ilog10_bounds_of_lt_one (q : ℚ) (h0 : 0 < q) (h1 : q < 1) :
    (10 : ℚ) ^ (-((natLog10 ⌊1 / q⌋.toNat : ℤ) + 1)) < q ∧
      q ≤ (10 : ℚ) ^ (-(natLog10 ⌊1 / q⌋.toNat : ℤ)) := by
  have hinv : 1 ≤ 1 / q := by
    rw [le_div_iff h0]
    linarith
  have hl := zpow_ilog10_le (1 / q) hinv
  have hr := lt_zpow_ilog10_succ (1 / q) hinv
  rw [ilog10_of_one_le _ hinv] at hl hr
  constructor
  · have h2 : 1 < q * 10 ^ ((natLog10 ⌊1 / q⌋.toNat : ℤ) + 1) := by
      have h3 := mul_lt_mul_of_pos_left hr h0
      rwa [mul_one_div, div_self (ne_of_gt h0)] at h3
    have hp : (0 : ℚ) < 10 ^ ((natLog10 ⌊1 / q⌋.toNat : ℤ) + 1) := by positivity
    rw [zpow_neg, inv_lt_iff_one_lt_mul₀ hp]
    exact h2
  · have hp : (0 : ℚ) < 10 ^ (natLog10 ⌊1 / q⌋.toNat : ℤ) := by positivity
    have h4 := one_div_le_one_div_of_le hp hl
    rw [one_div_one_div] at h4
    rw [zpow_neg, ← one_div]
    exact h4

/-! #### Properties of `split` -/

theorem fdiv3_eq (a : ℤ) : Int.fdiv a 3 = a / 3 :=
  Int.fdiv_eq_ediv a (by norm_num)

theorem splitExp_dvd3 (e0 : ℤ) : 3 ∣ splitExp e0 := by
  unfold splitExp
  split_ifs with h1 h2
  · exact ⟨Int.fdiv e0 3, mul_comm _ _⟩
  · exact ⟨-(Int.fdiv (-e0 + 3) 3), by ring⟩
  · have h : e0 = 0 := by omega
    simp [h]

theorem splitExp_le_of_nonneg (e0 : ℤ) (h : 0 ≤ e0) :
    splitExp e0 ≤ e0 ∧ e0 ≤ splitExp e0 + 2 := by
  unfold splitExp
  simp only [fdiv3_eq]
  split_ifs with h1 h2 <;> omega

theorem splitExp_of_neg (e0 : ℤ) (h : e0 < 0) :
    e0 - 3 ≤ splitExp e0 ∧ splitExp e0 ≤ e0 - 1 := by
  unfold splitExp
  simp only [fdiv3_eq]
  split_ifs with h1 h2 <;> omega

theorem splitRescale_prod (e : ℤ) (q : ℚ) :
    (splitRescale e q).1 * 10 ^ (splitRescale e q).2 = q := by
  have h10 : (10 : ℚ) ≠ 0 := by norm_num
  have key : (10 : ℚ) ^ (-e) * 10 ^ e = 1 := by
    rw [← zpow_add₀ h10]
    simp
  simp only [splitRescale]
  split_ifs with h
  · have key3 : (10 : ℚ) ^ (e + 3) = 10 ^ e * 1000 := by
      rw [zpow_add₀ h10]
      norm_num
    rw [key3]
    calc q * 10 ^ (-e) / 1000 * (10 ^ e * 1000)
        = q * (10 ^ (-e) * 10 ^ e) * (1000 / 1000) := by ring
      _ = q := by rw [key]; norm_num
  · calc q * 10 ^ (-e) * 10 ^ e = q * (10 ^ (-e) * 10 ^ e) := by ring
      _ = q := by rw [key]; ring

theorem splitRescale_dvd3 {e : ℤ} (q : ℚ) (h : 3 ∣ e) :
    3 ∣ (splitRescale e q).2 := by
  simp only [splitRescale]
  split_ifs <;> omega

theorem splitRescale_pos (e : ℤ) {q : ℚ} (h : 0 < q) :
    0 < (splitRescale e q).1 := by
  simp only [splitRescale]
  have hv : 0 < q * (10 : ℚ) ^ (-e) := by positivity
  split_ifs with hc
  · positivity
  · exact hv

theorem splitRescale_lower (e : ℤ) {q : ℚ}
    (h1 : 1 ≤ q * (10 : ℚ) ^ (-e)) : 1 ≤ (splitRescale e q).1 := by
  simp only [splitRescale]
  split_ifs with h
  · rw [le_div_iff (by norm_num : (0 : ℚ) < 1000)]
    linarith
  · exact h1

theorem splitRescale_upper (e : ℤ) {q : ℚ} (h0 : 0 < q)
    (h2 : q * (10 : ℚ) ^ (-e) ≤ 1000) : (splitRescale e q).1 < 1000 := by
  simp only [splitRescale]
  split_ifs with h
  · have h3 : q * (10 : ℚ) ^ (-e) / 1000 ≤ 1 := by
      rw [div_le_one (by norm_num : (0 : ℚ) < 1000)]
      exact h2
    linarith
  · exact lt_of_not_le h

/-- For positive `q`, the rescaled value is at most 1000 (so after the
correction step the mantissa is below 1000). -/
theorem split_arg_le (q : ℚ) (h0 : 0 < q) :
    q * (10 : ℚ) ^ (-(splitExp (ilog10 q))) ≤ 1000 := by
  have h10 : (10 : ℚ) ≠ 0 := by norm_num
  by_cases h : 1 ≤ q
  · have he0 : 0 ≤ ilog10 q := ilog10_nonneg_of_one_le q h
    obtain ⟨hle, hge⟩ := splitExp_le_of_nonneg _ he0
    have hq := lt_zpow_ilog10_succ q h
    calc q * (10 : ℚ) ^ (-(splitExp (ilog10 q)))
        ≤ 10 ^ (ilog10 q + 1) * 10 ^ (-(splitExp (ilog10 q))) :=
          mul_le_mul_of_nonneg_right hq.le (by positivity)
      _ = 10 ^ (ilog10 q + 1 + -(splitExp (ilog10 q))) := by rw [← zpow_add₀ h10]
      _ ≤ 10 ^ (3 : ℤ) := zpow_le_zpow_right₀ (by norm_num) (by omega)
      _ = 1000 := by norm_num
  · have hq1 : q < 1 := not_le.mp h
    rw [ilog10_of_lt_one q h]
    set k := (natLog10 ⌊1 / q⌋.toNat : ℤ) with hk
    obtain ⟨_, hub⟩ := ilog10_bounds_of_lt_one q h0 hq1
    rw [← hk] at hub
    by_cases hkz : k = 0
    · rw [hkz] at hub ⊢
      rw [neg_zero] at hub ⊢
      rw [zpow_zero] at hub
      rw [show splitExp 0 = 0 from rfl, neg_zero, zpow_zero]
      linarith
    · have hk0 : 0 ≤ k := Int.natCast_nonneg _
      have hneg : -k < 0 := by omega
      obtain ⟨_, hB⟩ := splitExp_of_neg (-k) hneg
      calc q * 10 ^ (-(splitExp (-k)))
          ≤ 10 ^ (-k) * 10 ^ (-(splitExp (-k))) :=
            mul_le_mul_of_nonneg_right hub (by positivity)
        _ = 10 ^ (-k + -(splitExp (-k))) := by rw [← zpow_add₀ h10]
        _ ≤ 10 ^ (3 : ℤ) := zpow_le_zpow_right₀ (by norm_num) (by omega)
        _ = 1000 := by norm_num

/-- For positive `q` with `q ≥ 1` or `q ≤ 1/10`, the rescaled value is at
least 1. -/
theorem split_arg_ge (q : ℚ) (h0 : 0 < q) (h : 1 ≤ q ∨ q ≤ 1 / 10) :
    1 ≤ q * (10 : ℚ) ^ (-(splitExp (ilog10 q))) := by
  have h10 : (10 : ℚ) ≠ 0 := by norm_num
  rcases h with h | h
  · have he0 : 0 ≤ ilog10 q := ilog10_nonneg_of_one_le q h
    obtain ⟨hle, _⟩ := splitExp_le_of_nonneg _ he0
    have hq := zpow_ilog10_le q h
    calc (1 : ℚ) = 10 ^ (0 : ℤ) := by norm_num
      _ ≤ 10 ^ (ilog10 q + -(splitExp (ilog10 q))) :=
          zpow_le_zpow_right₀ (by norm_num) (by omega)
      _ = 10 ^ (ilog10 q) * 10 ^ (-(splitExp (ilog10 q))) := zpow_add₀ h10 _ _
      _ ≤ q * 10 ^ (-(splitExp (ilog10 q))) :=
          mul_le_mul_of_nonneg_right hq (by positivity)
  · have hq1 : q < 1 := lt_of_le_of_lt h (by norm_num)
    have hq1' : ¬ 1 ≤ q := not_le.mpr hq1
    rw [ilog10_of_lt_one q hq1']
    set k := (natLog10 ⌊1 / q⌋.toNat : ℤ) with hk
    obtain ⟨hlb, _⟩ := ilog10_bounds_of_lt_one q h0 hq1
    rw [← hk] at hlb
    have hk1 : 1 ≤ k := by
      have h10q : (10 : ℚ) ≤ 1 / q := by
        rw [le_div_iff h0]
        linarith
      have hfl : (10 : ℤ) ≤ ⌊1 / q⌋ := Int.le_floor.mpr (by exact_mod_cast h10q)
      have h10n : 10 ≤ ⌊1 / q⌋.toNat := by omega
      have := natLog10_pos h10n
      omega
    have hneg : -k < 0 := by omega
    obtain ⟨_, hB⟩ := splitExp_of_neg (-k) hneg
    calc (1 : ℚ) = 10 ^ (0 : ℤ) := by norm_num
      _ ≤ 10 ^ (-(k + 1) + -(splitExp (-k))) :=
          zpow_le_zpow_right₀ (by norm_num) (by omega)
      _ = 10 ^ (-(k + 1)) * 10 ^ (-(splitExp (-k))) := zpow_add₀ h10 _ _
      _ ≤ q * 10 ^ (-(splitExp (-k))) :=
          mul_le_mul_of_nonneg_right hlb.le (by positivity)

theorem splitBody_spec (q : ℚ) (h0 : 0 < q) :
    3 ∣ (splitBody (ilog10 q) q).2 ∧
      (splitBody (ilog10 q) q).1 * 10 ^ (splitBody (ilog10 q) q).2 = q ∧
      0 < (splitBody (ilog10 q) q).1 ∧ (splitBody (ilog10 q) q).1 < 1000 := by
  unfold splitBody
  exact ⟨splitRescale_dvd3 q (splitExp_dvd3 _), splitRescale_prod _ _,
    splitRescale_pos _ h0, splitRescale_upper _ h0 (split_arg_le q h0)⟩

theorem splitBody_lower (q : ℚ) (h0 : 0 < q) (h : 1 ≤ q ∨ q ≤ 1 / 10) :
    1 ≤ (splitBody (ilog10 q) q).1 :=
  splitRescale_lower _ (split_arg_ge q h0 h)

theorem split_eq_of_pos {v : ℚ} (h : 0 < v) :
    split v = splitBody (ilog10 v) v := by
  unfold split splitWithLog
  rw [if_neg (not_lt.mpr h.le), if_neg (ne_of_gt h)]

theorem split_eq_of_neg {v : ℚ} (h : v < 0) :
    split v = (-(splitBody (ilog10 (-v)) (-v)).1,
      (splitBody (ilog10 (-v)) (-v)).2) := by
  unfold split splitWithLog
  rw [if_pos h]

theorem split_zero_eq : split 0 = (0, 0) := rfl

theorem split_dvd3 (v : ℚ) : 3 ∣ (split v).2 := by
  rcases lt_trichotomy v 0 with h | h | h
  · rw [split_eq_of_neg h]
    exact (splitBody_spec (-v) (by linarith)).1
  · rw [h, split_zero_eq]
    exact dvd_zero 3
  · rw [split_eq_of_pos h]
    exact (splitBody_spec v h).1

theorem split_prod (v : ℚ) : (split v).1 * 10 ^ (split v).2 = v := by
  rcases lt_trichotomy v 0 with h | h | h
  · rw [split_eq_of_neg h]
    have hp := (splitBody_spec (-v) (by linarith)).2.1
    calc (-(splitBody (ilog10 (-v)) (-v)).1, (splitBody (ilog10 (-v)) (-v)).2).1 *
          10 ^ (-(splitBody (ilog10 (-v)) (-v)).1, (splitBody (ilog10 (-v)) (-v)).2).2
        = -((splitBody (ilog10 (-v)) (-v)).1 * 10 ^ (splitBody (ilog10 (-v)) (-v)).2) := by
          ring
      _ = v := by rw [hp]; ring
  · rw [h, split_zero_eq]
    norm_num
  · rw [split_eq_of_pos h]
    exact (splitBody_spec v h).2.1

theorem split_lt1000 (v : ℚ) : |(split v).1| < 1000 := by
  rcases lt_trichotomy v 0 with h | h | h
  · rw [split_eq_of_neg h]
    have hs := splitBody_spec (-v) (by linarith)
    rw [show (-(splitBody (ilog10 (-v)) (-v)).1,
      (splitBody (ilog10 (-v)) (-v)).2).1 = -(splitBody (ilog10 (-v)) (-v)).1 from rfl]
    rw [abs_neg, abs_of_pos hs.2.2.1]
    exact hs.2.2.2
  · rw [h, split_zero_eq]
    norm_num
  · rw [split_eq_of_pos h, abs_of_pos (splitBody_spec v h).2.2.1]
    exact (splitBody_spec v h).2.2.2

theorem split_ge1 (v : ℚ) (hv : v ≠ 0) (hh : 1 ≤ |v| ∨ |v| ≤ 1 / 10) :
    1 ≤ |(split v).1| := by
  rcases lt_trichotomy v 0 with h | h | h
  · rw [split_eq_of_neg h]
    rw [abs_of_neg h] at hh
    have hs := splitBody_spec (-v) (by linarith)
    rw [show (-(splitBody (ilog10 (-v)) (-v)).1,
      (splitBody (ilog10 (-v)) (-v)).2).1 = -(splitBody (ilog10 (-v)) (-v)).1 from rfl]
    rw [abs_neg, abs_of_pos hs.2.2.1]
    exact splitBody_lower (-v) (by linarith) hh
  · exact absurd h hv
  · rw [split_eq_of_pos h, abs_of_pos (splitBody_spec v h).2.2.1]
    rw [abs_of_pos h] at hh
    exact splitBody_lower v h hh

theorem prefixChar_toOption_none {e : ℤ} (h : 27 ≤ e ∨ e ≤ -25) :
    (prefixChar e).toOption = none := by
  have key : prefixLevels < (Int.fdiv e 3).natAbs := by
    rw [prefixLevels_eq, fdiv3_eq]
    omega
  simp [prefixChar, if_pos key, Except.toOption]

/-- C1 amended: for every nonzero `v`, `split v = (m, e)` has `e` a multiple
of 3, `m * 10^e = v` exactly, and `|m| < 1000`; the lower bound `1 ≤ |m|`
holds whenever `|v| ≥ 1` or `|v| ≤ 1/10` (for `1/10 < |v| < 1` the code
returns `(v, 0)` with `|m| < 1`); and `split(999.9999999)` keeps the
mantissa below 1000. -/
theorem C1_amended_normalization :
    (∀ v : ℚ, v ≠ 0 → 3 ∣ (split v).2 ∧ (split v).1 * 10 ^ (split v).2 = v ∧
        |(split v).1| < 1000) ∧
      (∀ v : ℚ, v ≠ 0 → (1 ≤ |v| ∨ |v| ≤ 1 / 10) → 1 ≤ |(split v).1|) ∧
      |(split (9999999999 / 10 ^ 7 : ℚ)).1| < 1000 :=
  ⟨fun v _ => ⟨split_dvd3 v, split_prod v, split_lt1000 v⟩,
    fun v hv hh => split_ge1 v hv hh, by decide!⟩

/-- C1 amended, witness: the two quantified parts at `v = 4781.123`
(the doctest input `split(4781.123) = (4.781123, 3)`). -/
theorem C1_amended_normalization_witness :
    (3 ∣ (split (4781123 / 1000 : ℚ)).2 ∧
        (split (4781123 / 1000 : ℚ)).1 * 10 ^ (split (4781123 / 1000 : ℚ)).2 =
          4781123 / 1000 ∧ |(split (4781123 / 1000 : ℚ)).1| < 1000) ∧
      1 ≤ |(split (4781123 / 1000 : ℚ)).1| :=
  ⟨C1_amended_normalization.1 _ (by norm_num),
    C1_amended_normalization.2.1 _ (by norm_num)
      (Or.inl (by rw [abs_of_pos (by norm_num)]; norm_num))⟩

/-- C5: whenever the normalized exponent is out of the prefix range
(`|e| > 24`), `si_format` raises nothing: it renders the exponential
template with the scaled mantissa and the exponent, `+`-signed when
positive; in particular `si_format(1.55051e28) = "15.51e+27"`. -/
theorem C5_exp_fallback :
    (∀ v : ℚ, 24 < |(split v).2| →
        si_format v = String.mk (defaultExpFormat (split v).1 (expArg (split v).2))) ∧
      si_format (15505100000000000000000000000 : ℚ) = "15.51e+27" := by
  refine ⟨?_, by decide!⟩
  intro v hv
  have h3 := split_dvd3 v
  have herr : (prefixChar (split v).2).toOption = none := by
    apply prefixChar_toOption_none
    rcases le_or_lt 0 ((split v).2) with h | h
    · rw [abs_of_nonneg h] at hv
      omega
    · rw [abs_of_neg h] at hv
      omega
  simp [si_format, si_format_tpl, herr]

/-- C5 witness: the quantified part applied at `v = 10^27`. -/
theorem C5_exp_fallback_witness :
    si_format (1000000000000000000000000000 : ℚ) = "1.00e+27" := by
  have h := C5_exp_fallback.1 (1000000000000000000000000000 : ℚ) (by decide!)
  exact h.trans (by decide!)

/-- C9: `split(0.0)` returns exactly `(0.0, 0)`; the zero test precedes the
logarithm, so the result holds for an arbitrary logarithm oracle `lg` —
the logarithm is never evaluated. -/
theorem C9_split_zero :
    (∀ lg : ℚ → ℤ, splitWithLog lg 0 = (0, 0)) ∧ split 0 = (0, 0) :=
  ⟨fun _ => rfl, rfl⟩

/-- C9 witness: the first conjunct instantiated at a concrete oracle. -/
theorem C9_split_zero_witness : splitWithLog (fun _ => 37) 0 = (0, 0) :=
  C9_split_zero.1 (fun _ => 37)

/-- C3 counterexample: `|25 / 3| > 8`, yet `prefix(25)` does not raise — it
returns `'Y'` (the code divides with `//`, Python floor division). -/
theorem C3_counterexample :
    (8 : ℚ) < |(25 : ℚ) / 3| ∧ prefixChar 25 = .ok 'Y' := by decide!

/-- C3 amended: `prefix(exp)` raises the range error iff
`abs(exp // 3) > 8`, i.e. iff `exp ≥ 27` or `exp ≤ -25`; in particular
`prefix(27)` raises it and `prefix(24)` returns `'Y'`. -/
theorem C3_amended_prefix_range :
    (∀ e : ℤ, isErrorB (prefixChar e) = true ↔ (27 ≤ e ∨ e ≤ -25)) ∧
      prefixChar 27 = .error "Exponent out range of available prefixes." ∧
      prefixChar 24 = .ok 'Y' := by
  refine ⟨fun e => ?_, by decide!, by decide!⟩
  have key : (prefixLevels < (Int.fdiv e 3).natAbs) ↔ (27 ≤ e ∨ e ≤ -25) := by
    rw [prefixLevels_eq, Int.fdiv_eq_ediv _ (by norm_num : (0:ℤ) ≤ 3)]
    omega
  by_cases h : prefixLevels < (Int.fdiv e 3).natAbs
  · simp only [prefixChar, if_pos h, isErrorB, true_iff]
    exact key.mp h
  · simp only [prefixChar, if_neg h, isErrorB, Bool.false_eq_true, false_iff]
    exact fun hc => h (key.mpr hc)

/-- C8 counterexample: the table does not have 18 symbols. -/
theorem C8_counterexample : ¬ SI_PREFIX_UNITS.length = 18 := by decide!

/-- C8 amended: the SI prefix table is an ordered sequence of 17 symbols
(one per multiple of 3 from −24 to 24), its length is odd, the
zero-exponent slot (index 8) is the space, and index `i` maps to exponent
`3*(i - 8)` in both directions of the table lookup. -/
theorem C8_amended_table :
    SI_PREFIX_UNITS.length = 17 ∧ Odd SI_PREFIX_UNITS.length ∧
      siUnits.getD 8 'x' = ' ' ∧
      (∀ i : Fin 17, si_prefix_expof10 (siUnits.getD i 'x') = 3 * ((i : ℤ) - 8)) ∧
      (∀ i : Fin 17, prefixChar (3 * ((i : ℤ) - 8)) = .ok (siUnits.getD i 'x')) := by
  refine ⟨by decide!, ⟨8, by decide!⟩, by decide!, by decide!, by decide!⟩

/-- C7: the code contradicts its own comment `# Can be parse using float`:
the string `"1,5"` matches `CRE_10E_NUMBER` (the unescaped `.` in the
`fraction` group matches the comma) and contains digits, yet `float("1,5")`
raises an uncaught `ValueError` instead of returning a number. -/
theorem C7_float_branch_bug :
    runRe m1 "1,5".data = some ⟨some ['1'], some [',', '5'], none⟩ ∧
      "1,5".data.any Char.isDigit = true ∧
      si_parse "1,5" = .error .valueError := by decide!

/-- C4: `si_parse` surfaces an error whenever neither regex matches
(`AttributeError`) or the match that is used carries no digit group
(`AssertionError`); in particular on `"abc"` and on `""`.  The result type
makes the error reach the caller: there is no recovery branch. -/
theorem C4_parse_error_surfaced :
    (∀ s : String, runRe m1 s.data = none → runRe m2 s.data = none →
        si_parse s = .error .attrError) ∧
      (∀ (s : String) (g : G1), runRe m1 s.data = some g → g.integer = none →
        g.fraction = none → si_parse s = .error .assertError) ∧
      (∀ (s : String) (g : G2), runRe m1 s.data = none →
        runRe m2 s.data = some g → g.integer = none → g.fraction = none →
        si_parse s = .error .assertError) ∧
      si_parse "abc" = .error .attrError ∧ si_parse "" = .error .assertError := by
  refine ⟨?_, ?_, ?_, by decide!, by decide!⟩
  · intro s h1 h2
    simp [si_parse, h1, h2]
  · intro s g h1 hi hf
    simp [si_parse, h1, hi, hf]
  · intro s g h1 h2 hi hf
    simp [si_parse, h1, h2, hi, hf]

/-- C4 witness: the quantified parts applied at `"abc"` and `""`. -/
theorem C4_parse_error_surfaced_witness :
    si_parse "abc" = .error .attrError ∧ si_parse "" = .error .assertError :=
  ⟨C4_parse_error_surfaced.1 "abc" (by decide!) (by decide!),
    C4_parse_error_surfaced.2.1 "" ⟨none, none, none⟩ (by decide!) rfl rfl⟩

/-- C6: on the SI branch, `si_parse` multiplies the parsed `number` group
by `10^(3*(index - 8))` where `index` is the position of the captured
prefix character in the table (a missing prefix standing for the space at
index 8); in particular `si_parse("1.27 µ") = 1.27e-6` and
`si_parse("6.95k") = 6950`. -/
theorem C6_si_scale :
    (∀ (s : String) (g : G2) (q : ℚ), runRe m1 s.data = none →
        runRe m2 s.data = some g →
        (g.integer.isSome || g.fraction.isSome) = true →
        pyFloat (g2number g) = some q →
        si_parse s =
          .ok (q * (10 : ℚ) ^ (3 * ((siUnits.indexOf (g.si_unit.getD ' ') : ℤ) - 8)))) ∧
      si_parse "1.27 µ" = .ok (127 / 100000000) ∧
      si_parse "6.95k" = .ok 6950 := by
  refine ⟨?_, by decide!, by decide!⟩
  intro s g q h1 h2 h3 h4
  simp [si_parse, h1, h2, h3, h4, prefixLevels_eq]

/-- C6 witness: the quantified part applied to `"6.95k"`. -/
theorem C6_si_scale_witness : si_parse "6.95k" = .ok 6950 := by
  have h := C6_si_scale.1 "6.95k" ⟨some ['6'], some ['.', '9', '5'], some 'k'⟩
    (139 / 20) (by decide!) (by decide!) (by decide!) (by decide!)
  exact h.trans (by decide!)

/-- C10: whatever rendering function stands for the first template, if it
raises `ValueError` (`none`) — e.g. for a malformed caller-supplied
`format_str` — then for an in-range value (prefix resolution succeeded)
`si_format` still silently returns the exponential-template output. -/
theorem C10_template_error_fallback :
    ∀ (fmt : ℚ → List Char → Option (List Char)) (v : ℚ) (c : Char),
      prefixChar (split v).2 = .ok c →
      fmt (split v).1 (pyRstrip [c]) = none →
      si_format_tpl fmt v =
        String.mk (defaultExpFormat (split v).1 (expArg (split v).2)) := by
  intro fmt v c h1 h2
  simp [si_format_tpl, h1, h2, Except.toOption]

/-- C10 witness: a template that always raises, at `v = 1` (exponent 0,
in range). -/
theorem C10_template_error_fallback_witness :
    si_format_tpl (fun _ _ => none) 1 = "1.00e0" := by
  have h := C10_template_error_fallback (fun _ _ => none) 1 ' ' (by decide!) rfl
  exact h.trans (by decide!)

/-- C1 counterexample: `split(0.5)` returns `(0.5, 0)` — a mantissa with
`|m| < 1`, refuting `1 ≤ abs(m)` (the code truncates `log10` toward zero
instead of flooring, so magnitudes in `(0.1, 1)` are left unscaled). -/
theorem C1_counterexample :
    split (1 / 2) = (1 / 2, 0) ∧ ¬(1 ≤ |(split (1 / 2 : ℚ)).1|) := by decide!

/-- C2 counterexample: `v = 0.1049` is within prefix range (exponent 0),
but `si_parse(si_format(v)) = 0.1`, a relative error of about 4.7 % > 1 %. -/
theorem C2_counterexample :
    si_parse (si_format (1049 / 10000)) = .ok (1 / 10) ∧
      ¬(|(1 / 10 : ℚ) - 1049 / 10000| ≤ |(1049 / 10000 : ℚ)| / 100) := by decide!

/-! ### Character class facts -/

theorem not_sign_of_digit {c : Char} (h : isDigit0 c = true) : isSign c = false := by
  rcases Bool.eq_false_or_eq_true (isSign c) with ht | hf
  · exfalso
    have h2 : c = '+' ∨ c = '-' := by
      simpa [isSign] using ht
    rcases h2 with rfl | rfl <;> exact absurd h (by decide)
  · exact hf

theorem not_space_of_digit {c : Char} (h : isDigit0 c = true) : isPySpace c = false := by
  rcases Bool.eq_false_or_eq_true (isPySpace c) with ht | hf
  · exfalso
    have h2 := ht
    simp only [isPySpace, Bool.or_eq_true, decide_eq_true_eq] at h2
    rcases h2 with ((((rfl | rfl) | rfl) | rfl) | rfl) | rfl <;> exact absurd h (by decide)
  · exact hf

/-! ### Soundness of the matcher combinators: any outcome decomposes the
input in the expected way.  These drive the proof that the first regex
cannot match a string ending in a prefix letter. -/

theorem mem_bindP {α β : Type} {x : P α} {f : α → P β} {s : List Char}
    {b : β} {rest : List Char} (h : (b, rest) ∈ bindP x f s) :
    ∃ a mid, (a, mid) ∈ x s ∧ (b, rest) ∈ f a mid := by
  simp only [bindP, List.mem_flatMap] at h
  obtain ⟨⟨a, mid⟩, h1, h2⟩ := h
  exact ⟨a, mid, h1, h2⟩

theorem mem_pureP {α : Type} {a b : α} {s rest : List Char}
    (h : (b, rest) ∈ pureP a s) : b = a ∧ rest = s := by
  simp only [pureP, List.mem_singleton, Prod.mk.injEq] at h
  exact h

theorem mem_chIf {p : Char → Bool} {c : Char} {rest s : List Char}
    (h : (c, rest) ∈ chIf p s) : s = c :: rest ∧ p c = true := by
  match s with
  | [] => simp [chIf] at h
  | c' :: r =>
    by_cases hp : p c' = true
    · simp only [chIf, if_pos hp, List.mem_singleton, Prod.mk.injEq] at h
      obtain ⟨rfl, rfl⟩ := h
      exact ⟨rfl, hp⟩
    · simp only [chIf, if_neg hp, List.not_mem_nil] at h

theorem mem_endP {u : Unit} {rest s : List Char} (h : (u, rest) ∈ endP s) :
    s = [] ∧ rest = [] := by
  match s with
  | [] =>
    simp only [endP, List.mem_singleton, Prod.mk.injEq] at h
    exact ⟨rfl, h.2⟩
  | _ :: _ => simp [endP] at h

theorem mem_optG {α : Type} {x : P α} {o : Option α} {rest s : List Char}
    (h : (o, rest) ∈ optG x s) :
    (∃ a, o = some a ∧ (a, rest) ∈ x s) ∨ (o = none ∧ rest = s) := by
  simp only [optG, List.mem_append, List.mem_map, List.mem_singleton,
    Prod.mk.injEq] at h
  rcases h with ⟨⟨a, mid⟩, hm, he1, he2⟩ | ⟨h1, h2⟩
  · left
    refine ⟨a, he1.symm, ?_⟩
    have h2 : mid = rest := he2
    rw [← h2]
    exact hm
  · exact Or.inr ⟨h1, h2⟩

theorem takeRun_spec (p : Char → Bool) :
    ∀ s : List Char, (takeRun p s).1 ++ (takeRun p s).2 = s ∧
      (∀ c ∈ (takeRun p s).1, p c = true) := by
  intro s
  induction s with
  | nil => simp [takeRun]
  | cons c r ih =>
    by_cases hp : p c = true
    · simp only [takeRun, if_pos hp]
      refine ⟨by rw [List.cons_append, ih.1], ?_⟩
      intro c' hc'
      rcases List.mem_cons.mp hc' with rfl | hc'
      · exact hp
      · exact ih.2 c' hc'
    · simp [takeRun, if_neg hp]

theorem mem_greedyAlts : ∀ (run tail r rest : List Char),
    (r, rest) ∈ greedyAlts run tail →
    r ++ rest = run ++ tail ∧ ∃ u, run = r ++ u := by
  intro run
  induction run with
  | nil =>
    intro tail r rest h
    simp only [greedyAlts, List.mem_singleton, Prod.mk.injEq] at h
    obtain ⟨rfl, rfl⟩ := h
    exact ⟨rfl, [], rfl⟩
  | cons c run ih =>
    intro tail r rest h
    simp only [greedyAlts, List.mem_append, List.mem_map, List.mem_singleton,
      Prod.mk.injEq] at h
    rcases h with ⟨⟨r', rest'⟩, hm, he1, he2⟩ | ⟨h1, h2⟩
    · obtain ⟨hjoin, u, hu⟩ := ih tail r' rest' hm
      have hr : r = c :: r' := he1.symm
      have hrest : rest = rest' := he2.symm
      subst hr hrest
      constructor
      · rw [List.cons_append, hjoin, List.cons_append]
      · exact ⟨u, by rw [List.cons_append, hu]⟩
    · have hr : r = [] := h1
      have hrest : rest = c :: run ++ tail := h2
      subst hr hrest
      exact ⟨by simp, c :: run, rfl⟩

theorem mem_manyG {p : Char → Bool} {s r rest : List Char}
    (h : (r, rest) ∈ manyG p s) :
    r ++ rest = s ∧ ∀ c ∈ r, p c = true := by
  simp only [manyG] at h
  obtain ⟨hjoin, u, hu⟩ := mem_greedyAlts _ _ _ _ h
  obtain ⟨hs, hall⟩ := takeRun_spec p s
  refine ⟨by rw [hjoin, hs], ?_⟩
  intro c hc
  exact hall c (by rw [hu]; exact List.mem_append_left _ hc)

theorem many1G_consumed {p : Char → Bool} {r rest s : List Char}
    (h : (r, rest) ∈ many1G p s) :
    s = r ++ rest ∧ r ≠ [] ∧ ∀ c ∈ r, p c = true := by
  obtain ⟨c, s1, hc, h⟩ := mem_bindP h
  obtain ⟨run, s2, hrun, h⟩ := mem_bindP h
  obtain ⟨hr, hrest⟩ := mem_pureP h
  subst hr hrest
  obtain ⟨hs, hcp⟩ := mem_chIf hc
  obtain ⟨hjoin, hall⟩ := mem_manyG hrun
  subst hs
  refine ⟨by rw [List.cons_append, hjoin], by simp, ?_⟩
  intro c' hc'
  rcases List.mem_cons.mp hc' with rfl | hc'
  · exact hcp
  · exact hall c' hc'

/-- A nonempty list of `p`-characters ends in a `p`-character. -/
theorem concat_of_all {pr : Char → Bool} {l : List Char} (hne : l ≠ [])
    (h : ∀ c ∈ l, pr c = true) :
    ∃ u d, l = u ++ [d] ∧ pr d = true := by
  rcases List.eq_nil_or_concat l with rfl | ⟨L, b, hL⟩
  · exact absurd rfl hne
  · refine ⟨L, b, by rw [hL, List.concat_eq_append], h b ?_⟩
    rw [hL, List.concat_eq_append]
    exact List.mem_concat_self L b

theorem intGroup_consumed {r rest s : List Char}
    (h : (r, rest) ∈ intGroup s) :
    s = r ++ rest ∧ ∃ u d, r = u ++ [d] ∧ isDigit0 d = true := by
  obtain ⟨sg, s1, hsg, h⟩ := mem_bindP h
  obtain ⟨ds, s2, hds, h⟩ := mem_bindP h
  obtain ⟨hr, hrest⟩ := mem_pureP h
  subst hrest
  obtain ⟨hjoin1, hne, hall⟩ := many1G_consumed hds
  obtain ⟨L, b, hL, hb⟩ := concat_of_all hne hall
  rcases mem_optG hsg with ⟨a, hsome, ha⟩ | ⟨hnone, hmid⟩
  · subst hsome
    obtain ⟨hs, _⟩ := mem_chIf ha
    subst hs
    have hr2 : r = a :: ds := hr
    subst hr2
    refine ⟨by rw [List.cons_append, ← hjoin1], a :: L, b, ?_, hb⟩
    rw [hL, List.cons_append]
  · subst hnone hmid
    have hr2 : r = ds := hr
    subst hr2
    exact ⟨hjoin1, L, b, hL, hb⟩

theorem fracGroup_consumed {r rest s : List Char}
    (h : (r, rest) ∈ fracGroup s) :
    s = r ++ rest ∧ ∃ u d, r = u ++ [d] ∧ isDigit0 d = true := by
  obtain ⟨c, s1, hc, h⟩ := mem_bindP h
  obtain ⟨ds, s2, hds, h⟩ := mem_bindP h
  obtain ⟨hr, hrest⟩ := mem_pureP h
  subst hrest
  obtain ⟨hs, _⟩ := mem_chIf hc
  subst hs
  obtain ⟨hjoin1, hne, hall⟩ := many1G_consumed hds
  obtain ⟨L, b, hL, hb⟩ := concat_of_all hne hall
  have hr2 : r = c :: ds := hr
  subst hr2
  refine ⟨by rw [List.cons_append, ← hjoin1], c :: L, b, ?_, hb⟩
  rw [hL, List.cons_append]

theorem expGroup_consumed {r : List Char} {rest s : List Char}
    (h : (r, rest) ∈ expGroup s) :
    ∃ t, s = t ++ rest ∧ ∃ u d, t = u ++ [d] ∧ isDigit0 d = true := by
  obtain ⟨e, s1, he, h⟩ := mem_bindP h
  obtain ⟨w, s2, hw, h⟩ := mem_bindP h
  obtain ⟨sg, s3, hsg, h⟩ := mem_bindP h
  obtain ⟨ds, s4, hds, h⟩ := mem_bindP h
  obtain ⟨_, hrest⟩ := mem_pureP h
  subst hrest
  obtain ⟨hs, _⟩ := mem_chIf he
  subst hs
  obtain ⟨hwj, _⟩ := mem_manyG hw
  obtain ⟨hdj, hdne, hdall⟩ := many1G_consumed hds
  obtain ⟨L, b, hL, hb⟩ := concat_of_all hdne hdall
  rcases mem_optG hsg with ⟨a, hsome, ha⟩ | ⟨hnone, hmid⟩
  · obtain ⟨hs3, _⟩ := mem_chIf ha
    subst hs3
    refine ⟨e :: w ++ a :: ds, ?_, e :: w ++ a :: L, b, ?_, hb⟩
    · rw [← hwj, hdj]
      simp [List.append_assoc]
    · rw [hL]
      simp [List.append_assoc]
  · subst hmid
    refine ⟨e :: w ++ ds, ?_, e :: w ++ L, b, ?_, hb⟩
    · rw [← hwj, hdj]
      simp [List.append_assoc]
    · rw [hL]
      simp [List.append_assoc]

/-- Pasting "empty or ends in a digit/space" segments. -/
theorem ends_append_cases {l t : List Char}
    (hl : l = [] ∨ ∃ u c, l = u ++ [c] ∧ (isDigit0 c = true ∨ isPySpace c = true))
    (ht : t = [] ∨ ∃ u c, t = u ++ [c] ∧ (isDigit0 c = true ∨ isPySpace c = true)) :
    l ++ t = [] ∨
      ∃ u c, l ++ t = u ++ [c] ∧ (isDigit0 c = true ∨ isPySpace c = true) := by
  rcases ht with rfl | ⟨u, c, rfl, hc⟩
  · simpa using hl
  · right
    exact ⟨l ++ u, c, by simp, hc⟩

theorem all_spaces_ends {l : List Char} (h : ∀ c ∈ l, isPySpace c = true) :
    l = [] ∨ ∃ u c, l = u ++ [c] ∧ (isDigit0 c = true ∨ isPySpace c = true) := by
  by_cases hne : l = []
  · exact Or.inl hne
  · obtain ⟨u, d, hud, hd⟩ := concat_of_all hne h
    exact Or.inr ⟨u, d, hud, Or.inr hd⟩

theorem ends_digit {l : List Char} {u : List Char} {d : Char}
    (hl : l = u ++ [d]) (hd : isDigit0 d = true) :
    l = [] ∨ ∃ u c, l = u ++ [c] ∧ (isDigit0 c = true ∨ isPySpace c = true) :=
  Or.inr ⟨u, d, hl, Or.inl hd⟩

/-- Any complete match of `CRE_10E_NUMBER` is on a string that is empty or
ends in a digit or a whitespace character. -/
theorem m1_match_shape {g : G1} {s : List Char} (h : runRe m1 s = some g) :
    s = [] ∨ ∃ u c, s = u ++ [c] ∧ (isDigit0 c = true ∨ isPySpace c = true) := by
  have hmem : ∃ rest, (g, rest) ∈ m1 s := by
    unfold runRe at h
    cases he : m1 s with
    | nil => rw [he] at h; simp at h
    | cons x t =>
      rw [he] at h
      have hx : x.1 = g := Option.some.inj h
      refine ⟨x.2, ?_⟩
      rw [← hx]
      exact List.mem_cons_self x t
  obtain ⟨rest, hm⟩ := hmem
  obtain ⟨w1, s1, hw1, hm⟩ := mem_bindP hm
  obtain ⟨oi, s2, hoi, hm⟩ := mem_bindP hm
  obtain ⟨of, s3, hof, hm⟩ := mem_bindP hm
  obtain ⟨w2, s4, hw2, hm⟩ := mem_bindP hm
  obtain ⟨oe, s5, hoe, hm⟩ := mem_bindP hm
  obtain ⟨un, s6, hun, hm⟩ := mem_bindP hm
  obtain ⟨hs5, _⟩ := mem_endP hun
  subst hs5
  obtain ⟨hw1j, hw1all⟩ := mem_manyG hw1
  obtain ⟨hw2j, hw2all⟩ := mem_manyG hw2
  have e5 : s4 = [] ∨
      ∃ u c, s4 = u ++ [c] ∧ (isDigit0 c = true ∨ isPySpace c = true) := by
    rcases mem_optG hoe with ⟨a, _, ha⟩ | ⟨_, hmid⟩
    · obtain ⟨t, hts, u, d, htu, hd⟩ := expGroup_consumed ha
      rw [List.append_nil] at hts
      rw [hts]
      exact ends_digit htu hd
    · rw [hmid]
      exact Or.inl rfl
  have e4 : s3 = [] ∨
      ∃ u c, s3 = u ++ [c] ∧ (isDigit0 c = true ∨ isPySpace c = true) := by
    rw [← hw2j]
    exact ends_append_cases (all_spaces_ends hw2all) e5
  have e3 : s2 = [] ∨
      ∃ u c, s2 = u ++ [c] ∧ (isDigit0 c = true ∨ isPySpace c = true) := by
    rcases mem_optG hof with ⟨a, _, ha⟩ | ⟨_, hmid⟩
    · obtain ⟨hts, u, d, htu, hd⟩ := fracGroup_consumed ha
      rw [hts]
      exact ends_append_cases (ends_digit htu hd) e4
    · rw [← hmid]
      exact e4
  have e2 : s1 = [] ∨
      ∃ u c, s1 = u ++ [c] ∧ (isDigit0 c = true ∨ isPySpace c = true) := by
    rcases mem_optG hoi with ⟨a, _, ha⟩ | ⟨_, hmid⟩
    · obtain ⟨hts, u, d, htu, hd⟩ := intGroup_consumed ha
      rw [hts]
      exact ends_append_cases (ends_digit htu hd) e3
    · rw [← hmid]
      exact e3
  rw [← hw1j]
  exact ends_append_cases (all_spaces_ends hw1all) e2

/-- `CRE_10E_NUMBER` cannot match a string ending in a character that is
neither a digit nor whitespace (such as an SI prefix letter). -/
theorem runRe_m1_none_of_last {b : List Char} {c : Char}
    (hd : isDigit0 c = false) (hs : isPySpace c = false) :
    runRe m1 (b ++ [c]) = none := by
  cases hm : runRe m1 (b ++ [c]) with
  | none => rfl
  | some g =>
    exfalso
    rcases m1_match_shape hm with h0 | ⟨u, c', heq, hc'⟩
    · exact absurd h0 (by simp)
    · have h1 : (b ++ [c]).getLast? = some c := List.getLast?_concat b
      have h2 : (u ++ [c']).getLast? = some c' := List.getLast?_concat u
      rw [heq, h2] at h1
      have hc2 : c' = c := Option.some.inj h1
      subst hc2
      rcases hc' with h | h
      · rw [hd] at h; exact Bool.false_ne_true h
      · rw [hs] at h; exact Bool.false_ne_true h

/-! ### First results of the matchers (the match Python produces) -/

theorem runRe_eq_of_firstRes {α : Type} {x : P α} {s : List Char} {a : α}
    {r : List Char} (h : firstRes x s a r) : runRe x s = some a := by
  obtain ⟨t, e⟩ := h
  simp [runRe, e]

theorem firstRes_bindP {α β : Type} {x : P α} {f : α → P β} {s : List Char}
    {a : α} {r : List Char} {b : β} {r' : List Char}
    (h1 : firstRes x s a r) (h2 : firstRes (f a) r b r') :
    firstRes (bindP x f) s b r' := by
  obtain ⟨t1, e1⟩ := h1
  obtain ⟨t2, e2⟩ := h2
  refine ⟨t2 ++ t1.flatMap (fun q => f q.1 q.2), ?_⟩
  simp [bindP, e1, e2]

theorem firstRes_pureP {α : Type} (a : α) (s : List Char) :
    firstRes (pureP a) s a s := ⟨[], rfl⟩

theorem firstRes_chIf {p : Char → Bool} {c : Char} (s : List Char)
    (h : p c = true) : firstRes (chIf p) (c :: s) c s :=
  ⟨[], by simp [chIf, h]⟩

theorem firstRes_endP : firstRes endP [] () [] := ⟨[], rfl⟩

theorem firstRes_optG_some {α : Type} {x : P α} {s : List Char} {a : α}
    {r : List Char} (h : firstRes x s a r) :
    firstRes (optG x) s (some a) r := by
  obtain ⟨t, e⟩ := h
  refine ⟨t.map (fun q => (some q.1, q.2)) ++ [(none, s)], ?_⟩
  simp [optG, e]

theorem firstRes_optG_none {α : Type} {x : P α} {s : List Char}
    (h : x s = []) : firstRes (optG x) s none s :=
  ⟨[], by simp [optG, h]⟩

theorem greedyAlts_head : ∀ (run tail : List Char),
    ∃ t, greedyAlts run tail = (run, tail) :: t := by
  intro run
  induction run with
  | nil => exact fun tail => ⟨[], rfl⟩
  | cons c run ih =>
    intro tail
    obtain ⟨t, e⟩ := ih tail
    refine ⟨t.map (fun q => (c :: q.1, q.2)) ++ [([], c :: run ++ tail)], ?_⟩
    simp [greedyAlts, e]

theorem takeRun_eq {p : Char → Bool} :
    ∀ (ds rest : List Char), (∀ c ∈ ds, p c = true) →
      (∀ c, rest.head? = some c → p c = false) →
      takeRun p (ds ++ rest) = (ds, rest) := by
  intro ds
  induction ds with
  | nil =>
    intro rest _ hrest
    match rest with
    | [] => rfl
    | c :: r =>
      have hc := hrest c rfl
      simp [takeRun, hc]
  | cons c ds ih =>
    intro rest hds hrest
    have hc : p c = true := hds c (List.mem_cons_self _ _)
    have ihe := ih rest (fun c' hc' => hds c' (List.mem_cons_of_mem _ hc')) hrest
    simp [takeRun, hc, ihe]

theorem firstRes_manyG_of (p : Char → Bool) {l r : List Char}
    (hds : ∀ c ∈ l, p c = true)
    (hrest : ∀ c, r.head? = some c → p c = false) :
    firstRes (manyG p) (l ++ r) l r := by
  obtain ⟨t, e⟩ := greedyAlts_head l r
  refine ⟨t, ?_⟩
  simp only [manyG, takeRun_eq l r hds hrest]
  exact e

theorem firstRes_many1G {p : Char → Bool} {d : Char} {ds rest : List Char}
    (hd : p d = true) (hds : ∀ c ∈ ds, p c = true)
    (hrest : ∀ c, rest.head? = some c → p c = false) :
    firstRes (many1G p) (d :: (ds ++ rest)) (d :: ds) rest :=
  firstRes_bindP (firstRes_chIf _ hd)
    (firstRes_bindP (firstRes_manyG_of p hds hrest) (firstRes_pureP _ _))

theorem chIf_nil_of {p : Char → Bool} {s : List Char}
    (h : ∀ c, s.head? = some c → p c = false) : chIf p s = [] := by
  match s with
  | [] => rfl
  | c :: r => simp [chIf, h c rfl]

theorem expGroup_nil : expGroup [] = [] := rfl

theorem head_eq_false {p : Char → Bool} {d : Char} (hd : p d = false) :
    ∀ c, (d :: l).head? = some c → p c = false := by
  intro c hc
  rw [List.head?_cons, Option.some.injEq] at hc
  rw [← hc]
  exact hd

theorem intGroup_first_nosign {d : Char} {ds rest : List Char}
    (hd : isDigit0 d = true) (hds : ∀ c ∈ ds, isDigit0 c = true)
    (hrest : ∀ c, rest.head? = some c → isDigit0 c = false) :
    firstRes intGroup (d :: (ds ++ rest)) (d :: ds) rest := by
  have hsign : chIf isSign (d :: (ds ++ rest)) = [] :=
    chIf_nil_of (head_eq_false (not_sign_of_digit hd))
  exact firstRes_bindP (firstRes_optG_none hsign)
    (firstRes_bindP (firstRes_many1G hd hds hrest) (firstRes_pureP _ _))

theorem intGroup_first_sign {c d : Char} {ds rest : List Char}
    (hc : isSign c = true) (hd : isDigit0 d = true)
    (hds : ∀ c' ∈ ds, isDigit0 c' = true)
    (hrest : ∀ c', rest.head? = some c' → isDigit0 c' = false) :
    firstRes intGroup (c :: d :: (ds ++ rest)) (c :: d :: ds) rest :=
  firstRes_bindP (firstRes_optG_some (firstRes_chIf _ hc))
    (firstRes_bindP (firstRes_many1G hd hds hrest) (firstRes_pureP _ _))

theorem fracGroup_first {c d : Char} {l r : List Char}
    (hc : isDotAny c = true) (hd : isDigit0 d = true)
    (hds : ∀ c' ∈ l, isDigit0 c' = true)
    (hrest : ∀ c', r.head? = some c' → isDigit0 c' = false) :
    firstRes fracGroup (c :: d :: (l ++ r)) (c :: d :: l) r :=
  firstRes_bindP (firstRes_chIf _ hc)
    (firstRes_bindP (firstRes_many1G hd hds hrest) (firstRes_pureP _ _))

/-- `CRE_10E_NUMBER`'s match on a rendered fixed-point numeral followed by
a space: optional minus and integer digits, fraction `.dd`, trailing
whitespace, no exponent group. -/
theorem m1_first_rendered {sgn : List Char} {d : Char} {I2 : List Char}
    {c1 c2 : Char} (hsgn : sgn = [] ∨ sgn = ['-'])
    (hd : isDigit0 d = true) (hI2 : ∀ c ∈ I2, isDigit0 c = true)
    (h1 : isDigit0 c1 = true) (h2 : isDigit0 c2 = true) :
    runRe m1 (sgn ++ d :: I2 ++ '.' :: c1 :: c2 :: [' ']) =
      some ⟨some (sgn ++ d :: I2), some ['.', c1, c2], none⟩ := by
  apply runRe_eq_of_firstRes
  have hrest1 : ∀ c', (('.' :: c1 :: c2 :: [' '] : List Char)).head? = some c' →
      isDigit0 c' = false := head_eq_false (by decide)
  have hrest2 : ∀ c', (([' '] : List Char)).head? = some c' →
      isDigit0 c' = false := head_eq_false (by decide)
  have hfrac : firstRes fracGroup ('.' :: c1 :: c2 :: [' ']) ['.', c1, c2] [' '] := by
    have h := fracGroup_first (c := '.') (d := c1) (l := [c2]) (r := [' '])
      (by decide) h1
      (by intro c' hc'; rw [List.mem_singleton] at hc'; rw [hc']; exact h2) hrest2
    exact h
  have hws2 : firstRes (manyG isPySpace) [' '] [' '] [] := by
    have h := firstRes_manyG_of isPySpace (l := [' ']) (r := [])
      (by intro c hc; rw [List.mem_singleton] at hc; rw [hc]; rfl)
      (by intro c hc; simp at hc)
    simpa using h
  have hexp : firstRes (optG expGroup) ([] : List Char) none [] :=
    firstRes_optG_none expGroup_nil
  have htail : firstRes
      (bindP (optG fracGroup) fun f =>
        bindP (manyG isPySpace) fun _ =>
        bindP (optG expGroup) fun e =>
        bindP endP fun _ =>
        pureP (⟨some (sgn ++ d :: I2), f, e⟩ : G1))
      ('.' :: c1 :: c2 :: [' ']) ⟨some (sgn ++ d :: I2), some ['.', c1, c2], none⟩ [] :=
    firstRes_bindP (firstRes_optG_some hfrac)
      (firstRes_bindP hws2
        (firstRes_bindP hexp
          (firstRes_bindP firstRes_endP (firstRes_pureP _ _))))
  rcases hsgn with rfl | rfl
  · exact firstRes_bindP
      (firstRes_manyG_of isPySpace (l := [])
        (r := d :: (I2 ++ '.' :: c1 :: c2 :: [' ']))
        (by intro c hc; simp at hc)
        (head_eq_false (not_space_of_digit hd)))
      (firstRes_bindP
        (firstRes_optG_some (intGroup_first_nosign hd hI2 hrest1)) htail)
  · exact firstRes_bindP
      (firstRes_manyG_of isPySpace (l := [])
        (r := '-' :: d :: (I2 ++ '.' :: c1 :: c2 :: [' ']))
        (by intro c hc; simp at hc)
        (head_eq_false (by decide)))
      (firstRes_bindP
        (firstRes_optG_some (intGroup_first_sign (by decide) hd hI2 hrest1)) htail)

/-- The local `CRE_SI_NUMBER`'s match on a rendered fixed-point numeral, a
space, and a prefix character. -/
theorem m2_first_rendered {sgn : List Char} {d : Char} {I2 : List Char}
    {c1 c2 u : Char} (hsgn : sgn = [] ∨ sgn = ['-'])
    (hd : isDigit0 d = true) (hI2 : ∀ c ∈ I2, isDigit0 c = true)
    (h1 : isDigit0 c1 = true) (h2 : isDigit0 c2 = true)
    (hu : isSiUnit u = true) (hud : isDigit0 u = false)
    (hus : isPySpace u = false) :
    runRe m2 (sgn ++ d :: I2 ++ '.' :: c1 :: c2 :: ' ' :: [u]) =
      some ⟨some (sgn ++ d :: I2), some ['.', c1, c2], some u⟩ := by
  apply runRe_eq_of_firstRes
  have hrest1 : ∀ c', (('.' :: c1 :: c2 :: ' ' :: [u] : List Char)).head? = some c' →
      isDigit0 c' = false := head_eq_false (by decide)
  have hrest2 : ∀ c', ((' ' :: [u] : List Char)).head? = some c' →
      isDigit0 c' = false := head_eq_false (by decide)
  have hfrac : firstRes fracGroup ('.' :: c1 :: c2 :: ' ' :: [u])
      ['.', c1, c2] (' ' :: [u]) := by
    have h := fracGroup_first (c := '.') (d := c1) (l := [c2]) (r := ' ' :: [u])
      (by decide) h1
      (by intro c' hc'; rw [List.mem_singleton] at hc'; rw [hc']; exact h2) hrest2
    exact h
  have hws2 : firstRes (manyG isPySpace) (' ' :: [u]) [' '] [u] := by
    have h := firstRes_manyG_of isPySpace (l := [' ']) (r := [u])
      (by intro c hc; rw [List.mem_singleton] at hc; rw [hc]; rfl)
      (head_eq_false hus)
    simpa using h
  have hws3 : firstRes (manyG isPySpace) ([] : List Char) [] [] := by
    have h := firstRes_manyG_of isPySpace (l := []) (r := [])
      (by intro c hc; simp at hc) (by intro c hc; simp at hc)
    simpa using h
  have htail : firstRes
      (bindP (optG fracGroup) fun f =>
        bindP (manyG isPySpace) fun _ =>
        bindP (optG (chIf isSiUnit)) fun un =>
        bindP (manyG isPySpace) fun _ =>
        bindP endP fun _ =>
        pureP (⟨some (sgn ++ d :: I2), f, un⟩ : G2))
      ('.' :: c1 :: c2 :: ' ' :: [u])
      ⟨some (sgn ++ d :: I2), some ['.', c1, c2], some u⟩ [] :=
    firstRes_bindP (firstRes_optG_some hfrac)
      (firstRes_bindP hws2
        (firstRes_bindP (firstRes_optG_some (firstRes_chIf [] hu))
          (firstRes_bindP hws3
            (firstRes_bindP firstRes_endP (firstRes_pureP _ _)))))
  rcases hsgn with rfl | rfl
  · exact firstRes_bindP
      (firstRes_manyG_of isPySpace (l := [])
        (r := d :: (I2 ++ '.' :: c1 :: c2 :: ' ' :: [u]))
        (by intro c hc; simp at hc)
        (head_eq_false (not_space_of_digit hd)))
      (firstRes_bindP
        (firstRes_optG_some (intGroup_first_nosign hd hI2 hrest1)) htail)
  · exact firstRes_bindP
      (firstRes_manyG_of isPySpace (l := [])
        (r := '-' :: d :: (I2 ++ '.' :: c1 :: c2 :: ' ' :: [u]))
        (by intro c hc; simp at hc)
        (head_eq_false (by decide)))
      (firstRes_bindP
        (firstRes_optG_some (intGroup_first_sign (by decide) hd hI2 hrest1)) htail)

/-! ### Digit strings -/

theorem digitChar_isDigit {d : ℕ} (h : d < 10) :
    isDigit0 (digitChar d) = true := by
  interval_cases d <;> decide

theorem digitChar_val {d : ℕ} (h : d < 10) : (digitChar d).toNat - 48 = d := by
  interval_cases d <;> decide

theorem digitsVal_append_single (A : List Char) (d : Char) :
    digitsVal (A ++ [d]) = 10 * digitsVal A + (d.toNat - 48) := by
  simp [digitsVal, List.foldl_append]

theorem natStrF_fuel : ∀ f1 n acc, n < f1 → ∀ f2, n < f2 →
    natStrF f1 n acc = natStrF f2 n acc := by
  intro f1
  induction f1 with
  | zero => intro n acc h; omega
  | succ g ih =>
    intro n acc h f2 h2
    obtain ⟨f2p, rfl⟩ : ∃ k, f2 = k + 1 := ⟨f2 - 1, by omega⟩
    by_cases hn : n < 10
    · simp [natStrF, hn]
    · simp only [natStrF, if_neg hn]
      have hlt := Nat.div_lt_self (by omega : 0 < n) (by norm_num : 1 < 10)
      exact ih (n / 10) _ (by omega) f2p (by omega)

theorem natStrF_acc : ∀ f n acc, n < f →
    natStrF f n acc = natStrF f n [] ++ acc := by
  intro f
  induction f with
  | zero => intro n acc h; omega
  | succ g ih =>
    intro n acc h
    by_cases hn : n < 10
    · simp [natStrF, hn]
    · simp only [natStrF, if_neg hn]
      have hlt2 := Nat.div_lt_self (by omega : 0 < n) (by norm_num : 1 < 10)
      rw [ih (n / 10) (digitChar (n % 10) :: acc) (by omega),
        ih (n / 10) [digitChar (n % 10)] (by omega)]
      simp

theorem natStr_lt10 {n : ℕ} (h : n < 10) : natStr n = [digitChar n] := by
  simp [natStr, natStrF, h]

theorem natStr_ge10 {n : ℕ} (h : ¬ n < 10) :
    natStr n = natStr (n / 10) ++ [digitChar (n % 10)] := by
  have hlt := Nat.div_lt_self (by omega : 0 < n) (by norm_num : 1 < 10)
  have h1 : natStr n = natStrF n (n / 10) [digitChar (n % 10)] := by
    simp [natStr, natStrF, h]
  rw [h1, natStrF_acc n (n / 10) [digitChar (n % 10)] (by omega),
    natStrF_fuel n (n / 10) [] (by omega) (n / 10 + 1) (by omega)]
  rfl

theorem natStr_spec : ∀ n : ℕ, natStr n ≠ [] ∧
    (∀ c ∈ natStr n, isDigit0 c = true) ∧ digitsVal (natStr n) = n := by
  intro n
  induction n using Nat.strong_induction_on with
  | _ n ih =>
    by_cases h : n < 10
    · rw [natStr_lt10 h]
      refine ⟨by simp, ?_, ?_⟩
      · intro c hc
        rw [List.mem_singleton] at hc
        rw [hc]
        exact digitChar_isDigit h
      · show digitsVal ([] ++ [digitChar n]) = n
        rw [digitsVal_append_single, digitChar_val h]
        simp [digitsVal]
    · rw [natStr_ge10 h]
      obtain ⟨ihne, ihdig, ihval⟩ :=
        ih (n / 10) (Nat.div_lt_self (by omega) (by norm_num))
      have hm : n % 10 < 10 := Nat.mod_lt _ (by norm_num)
      refine ⟨by simp, ?_, ?_⟩
      · intro c hc
        rcases List.mem_append.mp hc with hc | hc
        · exact ihdig c hc
        · rw [List.mem_singleton] at hc
          rw [hc]
          exact digitChar_isDigit hm
      · rw [digitsVal_append_single, ihval, digitChar_val hm]
        omega

/-! ### Evaluating the `float` model on rendered numerals -/

theorem dropWhile_append_all {p : Char → Bool} :
    ∀ (w r : List Char), (∀ c ∈ w, p c = true) →
      (w ++ r).dropWhile p = r.dropWhile p := by
  intro w
  induction w with
  | nil => intro r _; rfl
  | cons c w ih =>
    intro r hw
    rw [List.cons_append, List.dropWhile_cons,
      if_pos (hw c (List.mem_cons_self _ _))]
    exact ih r (fun c' hc' => hw c' (List.mem_cons_of_mem _ hc'))

theorem dropWhile_head_false {p : Char → Bool} {l : List Char}
    (h : ∀ c, l.head? = some c → p c = false) : l.dropWhile p = l := by
  match l with
  | [] => rfl
  | c :: r =>
    rw [List.dropWhile_cons, if_neg (by simp [h c rfl])]

theorem pyStrip_eq {a b : Char} {m w : List Char}
    (ha : isPySpace a = false) (hb : isPySpace b = false)
    (hw : ∀ c ∈ w, isPySpace c = true) :
    pyStrip ((a :: (m ++ [b])) ++ w) = a :: (m ++ [b]) := by
  unfold pyStrip
  rw [dropWhile_head_false (l := (a :: (m ++ [b])) ++ w) (by
    intro c hc
    rw [List.cons_append, List.head?_cons, Option.some.injEq] at hc
    rw [← hc]
    exact ha)]
  have h2 : ((a :: (m ++ [b])) ++ w).reverse =
      w.reverse ++ (b :: (m.reverse ++ [a])) := by
    simp [List.reverse_append, List.reverse_cons, List.append_assoc]
  rw [h2, dropWhile_append_all w.reverse _
      (fun c hc => hw c (List.mem_reverse.mp hc)),
    dropWhile_head_false (head_eq_false hb)]
  simp [List.reverse_append, List.reverse_cons]

theorem pySign_minus (r : List Char) : pySign ('-' :: r) = (-1, r) := rfl

theorem pySign_digit {d : Char} (hd : isDigit0 d = true) (r : List Char) :
    pySign (d :: r) = (1, d :: r) := by
  have hs : isSign d = false := not_sign_of_digit hd
  have h1 : d ≠ '+' := by
    intro he
    rw [he] at hs
    exact absurd hs (by decide)
  have h2 : d ≠ '-' := by
    intro he
    rw [he] at hs
    exact absurd hs (by decide)
  simp [pySign, h1, h2]

theorem pyFloat_rendered {sgn : List Char} {d : Char} {I2 : List Char}
    {c1 c2 : Char} {w : List Char} (hsgn : sgn = [] ∨ sgn = ['-'])
    (hd : isDigit0 d = true) (hI2 : ∀ c ∈ I2, isDigit0 c = true)
    (h1 : isDigit0 c1 = true) (h2 : isDigit0 c2 = true)
    (hw : ∀ c ∈ w, isPySpace c = true) :
    pyFloat ((sgn ++ d :: I2 ++ '.' :: c1 :: c2 :: []) ++ w) =
      some ((if sgn = ['-'] then (-1 : ℚ) else 1) *
        ((digitsVal (d :: I2) : ℚ) + (digitsVal [c1, c2] : ℚ) / 100)) := by
  have hdot : ∀ c, (('.' :: c1 :: c2 :: [] : List Char)).head? = some c →
      isDigit0 c = false := head_eq_false (by decide)
  have hipart :
      takeRun isDigit0 (d :: (I2 ++ '.' :: c1 :: c2 :: [])) =
        (d :: I2, '.' :: c1 :: c2 :: []) := by
    have h := takeRun_eq (p := isDigit0) (d :: I2) ('.' :: c1 :: c2 :: [])
      (by
        intro c hc
        rcases List.mem_cons.mp hc with rfl | hc
        · exact hd
        · exact hI2 c hc) hdot
    simpa [List.cons_append] using h
  have hfpart : takeRun isDigit0 ([c1, c2] : List Char) = ([c1, c2], []) := by
    have h := takeRun_eq (p := isDigit0) [c1, c2] []
      (by
        intro c hc
        rcases List.mem_cons.mp hc with rfl | hc
        · exact h1
        · rw [List.mem_singleton] at hc
          rw [hc]
          exact h2)
      (by intro c hc; simp at hc)
    simpa using h
  rcases hsgn with rfl | rfl
  · have hstrip : pyStrip (d :: (I2 ++ '.' :: c1 :: c2 :: w)) =
        d :: (I2 ++ ['.', c1, c2]) := by
      have h := pyStrip_eq (a := d) (b := c2) (m := I2 ++ ['.', c1]) (w := w)
        (not_space_of_digit hd) (not_space_of_digit h2) hw
      simpa [List.append_assoc, List.cons_append, List.nil_append] using h
    simp only [List.nil_append, List.cons_append, List.append_assoc, pyFloat,
      hstrip]
    rw [pySign_digit hd]
    simp only [hipart, hfpart]
    rw [if_neg (by simp)]
    simp only [pyExpTail]
    norm_num
  · have hstrip : pyStrip ('-' :: d :: (I2 ++ '.' :: c1 :: c2 :: w)) =
        '-' :: d :: (I2 ++ ['.', c1, c2]) := by
      have h := pyStrip_eq (a := '-') (b := c2)
        (m := (d :: I2) ++ ['.', c1]) (w := w)
        (by decide) (not_space_of_digit h2) hw
      simpa [List.append_assoc, List.cons_append, List.nil_append] using h
    simp only [List.nil_append, List.cons_append, List.append_assoc, pyFloat,
      hstrip]
    rw [pySign_minus]
    simp only [hipart, hfpart]
    rw [if_neg (by simp)]
    simp only [pyExpTail]
    norm_num

/-! ### Rounding and rendering helpers -/

theorem rhe_bound (x : ℚ) : |((rhe x : ℤ) : ℚ) - x| ≤ 1 / 2 := by
  have hf := Int.floor_le x
  have hc := Int.lt_floor_add_one x
  unfold rhe
  split_ifs with hA hB hC <;> rw [abs_le] <;> constructor <;> push_cast <;>
    linarith

theorem rhe_nonneg {x : ℚ} (h : 0 ≤ x) : 0 ≤ rhe x := by
  have hf : 0 ≤ ⌊x⌋ := Int.floor_nonneg.mpr h
  unfold rhe
  split_ifs <;> omega

theorem formatFixed2_eq (q : ℚ) :
    formatFixed2 q = (if q < 0 then ['-'] else []) ++
      natStr ((rhe (|q| * 100)).toNat / 100) ++
      '.' :: [digitChar ((rhe (|q| * 100)).toNat % 100 / 10),
        digitChar ((rhe (|q| * 100)).toNat % 100 % 10)] := rfl

theorem digitsVal_pad (M : ℕ) (h : M < 100) :
    digitsVal [digitChar (M / 10), digitChar (M % 10)] = M := by
  have h1 : M / 10 < 10 := by omega
  have h2 : M % 10 < 10 := by omega
  show digitsVal ([digitChar (M / 10)] ++ [digitChar (M % 10)]) = M
  rw [digitsVal_append_single]
  have e1 : digitsVal [digitChar (M / 10)] = M / 10 := by
    show digitsVal ([] ++ [digitChar (M / 10)]) = M / 10
    rw [digitsVal_append_single, digitChar_val h1]
    simp [digitsVal]
  rw [e1, digitChar_val h2]
  omega

theorem pyRstrip_single {u : Char} (h : isPySpace u = false) :
    pyRstrip [u] = [u] := by
  simp [pyRstrip, List.dropWhile_cons, h]

theorem pyRstrip_space : pyRstrip [' '] = [] := rfl

/-- Facts about the table entry at a nonzero in-range level. -/
theorem unit_facts : ∀ k : ℤ, -8 ≤ k → k ≤ 8 → k ≠ 0 →
    isSiUnit (siUnits.getD (k + 8).toNat ' ') = true ∧
      isDigit0 (siUnits.getD (k + 8).toNat ' ') = false ∧
      isPySpace (siUnits.getD (k + 8).toNat ' ') = false ∧
      (siUnits.indexOf (siUnits.getD (k + 8).toNat ' ') : ℤ) = k + 8 := by
  intro k h1 h2 h3
  interval_cases k <;>
    first
      | omega
      | exact ⟨by decide, by decide, by decide, by decide⟩

theorem prefixChar_ok {e : ℤ} (hlo : -24 ≤ e) (hhi : e ≤ 24) :
    prefixChar e = .ok (siUnits.getD (Int.fdiv e 3 + 8).toNat ' ') := by
  have hb : ¬ (prefixLevels < (Int.fdiv e 3).natAbs) := by
    rw [prefixLevels_eq, fdiv3_eq]
    omega
  rw [prefixChar]
  rw [if_neg hb]
  rw [prefixLevels_eq]
  norm_num

theorem si_format_ok {v : ℚ} {c : Char}
    (h : prefixChar (split v).2 = .ok c) :
    si_format v = String.mk (defaultFormat (split v).1 (pyRstrip [c])) := by
  simp [si_format, si_format_tpl, h, Except.toOption]

theorem roundtrip_err {m q : ℚ} (e : ℤ) (hm : 1 ≤ |m|)
    (hq : |q - m| ≤ 1 / 200) :
    |q * 10 ^ e - m * 10 ^ e| ≤ |m * 10 ^ e| / 100 := by
  have hp : (0 : ℚ) < 10 ^ e := zpow_pos (by norm_num) e
  rw [← sub_mul, abs_mul, abs_mul, abs_of_pos hp]
  have h1 : |q - m| * 10 ^ e ≤ 1 / 200 * 10 ^ e :=
    mul_le_mul_of_nonneg_right hq hp.le
  have h2 : (1 / 200 : ℚ) * 10 ^ e ≤ |m| * 10 ^ e / 100 := by
    have h3 : (1 / 200 : ℚ) ≤ |m| / 100 := by linarith
    calc (1 / 200 : ℚ) * 10 ^ e ≤ |m| / 100 * 10 ^ e :=
          mul_le_mul_of_nonneg_right h3 hp.le
      _ = |m| * 10 ^ e / 100 := by ring
  linarith

/-- Parsing the default-format output of an in-range value recovers the
two-decimal rounding of the mantissa times the split scale, exactly. -/
theorem si_parse_si_format (v : ℚ) (hv : v ≠ 0) (hm : 1 ≤ |(split v).1|)
    (hlo : -24 ≤ (split v).2) (hhi : (split v).2 ≤ 24) :
    si_parse (si_format v) =
      .ok ((if (split v).1 < 0 then (-1 : ℚ) else 1) *
        (((rhe (|(split v).1| * 100)).toNat : ℚ) / 100) * 10 ^ (split v).2) := by
  obtain ⟨k, hk⟩ := split_dvd3 v
  have hkb1 : -8 ≤ k := by omega
  have hkb2 : k ≤ 8 := by omega
  have hfd : Int.fdiv (split v).2 3 = k := by
    rw [hk, fdiv3_eq]
    omega
  have hok := prefixChar_ok hlo hhi
  rw [hfd] at hok
  have hfmt := si_format_ok hok
  set m := (split v).1 with hmdef
  set N := (rhe (|m| * 100)).toNat with hNdef
  obtain ⟨hne, hdig, hval⟩ := natStr_spec (N / 100)
  obtain ⟨d, I2, hI⟩ : ∃ d I2, natStr (N / 100) = d :: I2 := by
    cases hq : natStr (N / 100) with
    | nil => exact absurd hq hne
    | cons d I2 => exact ⟨d, I2, rfl⟩
  have hd : isDigit0 d = true := hdig d (by rw [hI]; exact List.mem_cons_self _ _)
  have hI2d : ∀ c ∈ I2, isDigit0 c = true := fun c hc =>
    hdig c (by rw [hI]; exact List.mem_cons_of_mem _ hc)
  have hMlt : N % 100 < 100 := Nat.mod_lt _ (by norm_num)
  have hc1 : isDigit0 (digitChar (N % 100 / 10)) = true :=
    digitChar_isDigit (by omega)
  have hc2 : isDigit0 (digitChar (N % 100 % 10)) = true :=
    digitChar_isDigit (by omega)
  have hsgn2 : (if m < 0 then (['-'] : List Char) else []) = [] ∨
      (if m < 0 then (['-'] : List Char) else []) = ['-'] := by
    split_ifs <;> simp
  have hvalq : (if (if m < 0 then (['-'] : List Char) else []) = ['-']
        then (-1 : ℚ) else 1) *
      ((digitsVal (d :: I2) : ℚ) +
        (digitsVal [digitChar (N % 100 / 10), digitChar (N % 100 % 10)] : ℚ) / 100) =
      (if m < 0 then (-1 : ℚ) else 1) * ((N : ℚ) / 100) := by
    have hv1 : digitsVal (d :: I2) = N / 100 := by rw [← hI]; exact hval
    have hv2 : digitsVal [digitChar (N % 100 / 10), digitChar (N % 100 % 10)] =
        N % 100 := digitsVal_pad _ hMlt
    have hNsplit : 100 * (N / 100) + N % 100 = N := Nat.div_add_mod N 100
    have hsum : ((N / 100 : ℕ) : ℚ) + ((N % 100 : ℕ) : ℚ) / 100 = (N : ℚ) / 100 := by
      have hcast : ((N : ℕ) : ℚ) = 100 * ((N / 100 : ℕ) : ℚ) + ((N % 100 : ℕ) : ℚ) := by
        exact_mod_cast congrArg (fun t : ℕ => (t : ℚ)) hNsplit.symm
      rw [hcast]
      ring
    rw [hv1, hv2, hsum]
    by_cases hneg : m < 0 <;> simp [hneg]
  by_cases hk0 : k = 0
  · -- exponent 0: the space prefix is stripped, the first regex matches
    subst hk0
    have he0 : (split v).2 = 0 := by omega
    have hbody : defaultFormat m (pyRstrip [siUnits.getD ((0 : ℤ) + 8).toNat ' ']) =
        (if m < 0 then (['-'] : List Char) else []) ++ d :: I2 ++
          '.' :: digitChar (N % 100 / 10) :: digitChar (N % 100 % 10) :: [' '] := by
      rw [show siUnits.getD ((0 : ℤ) + 8).toNat ' ' = ' ' from by decide,
        pyRstrip_space, defaultFormat, formatFixed2_eq, hI]
      simp [List.append_assoc]
    rw [hfmt, hbody]
    have hpf : pyFloat ((if m < 0 then (['-'] : List Char) else []) ++ d :: I2 ++
        '.' :: digitChar (N % 100 / 10) :: digitChar (N % 100 % 10) :: [' ']) =
        some ((if (if m < 0 then (['-'] : List Char) else []) = ['-']
            then (-1 : ℚ) else 1) *
          ((digitsVal (d :: I2) : ℚ) +
            (digitsVal [digitChar (N % 100 / 10), digitChar (N % 100 % 10)] : ℚ) / 100)) := by
      have h := pyFloat_rendered (w := [' ']) hsgn2 hd hI2d hc1 hc2
        (by intro c hc; rw [List.mem_singleton] at hc; rw [hc]; rfl)
      rw [show ((if m < 0 then (['-'] : List Char) else []) ++ d :: I2 ++
          '.' :: digitChar (N % 100 / 10) :: digitChar (N % 100 % 10) :: []) ++ [' '] =
          (if m < 0 then (['-'] : List Char) else []) ++ d :: I2 ++
          '.' :: digitChar (N % 100 / 10) :: digitChar (N % 100 % 10) :: [' '] from by
        simp [List.append_assoc]] at h
      exact h
    unfold si_parse
    rw [show (String.mk ((if m < 0 then (['-'] : List Char) else []) ++ d :: I2 ++
        '.' :: digitChar (N % 100 / 10) :: digitChar (N % 100 % 10) :: [' '])).data =
        (if m < 0 then (['-'] : List Char) else []) ++ d :: I2 ++
        '.' :: digitChar (N % 100 / 10) :: digitChar (N % 100 % 10) :: [' '] from rfl]
    rw [m1_first_rendered hsgn2 hd hI2d hc1 hc2]
    simp only [Option.isSome_some, Bool.true_or, if_true, hpf]
    rw [hvalq, he0]
    norm_num
  · -- nonzero level: a prefix letter is appended, the second regex matches
    obtain ⟨hu_si, hu_nd, hu_ns, hu_idx⟩ := unit_facts k hkb1 hkb2 hk0
    rw [pyRstrip_single hu_ns] at hfmt
    have hbody : defaultFormat m [siUnits.getD (k + 8).toNat ' '] =
        (if m < 0 then (['-'] : List Char) else []) ++ d :: I2 ++
          '.' :: digitChar (N % 100 / 10) :: digitChar (N % 100 % 10) :: ' ' ::
            [siUnits.getD (k + 8).toNat ' '] := by
      rw [defaultFormat, formatFixed2_eq, hI]
      simp [List.append_assoc]
    rw [hfmt, hbody]
    have hnone : runRe m1 ((if m < 0 then (['-'] : List Char) else []) ++ d :: I2 ++
        '.' :: digitChar (N % 100 / 10) :: digitChar (N % 100 % 10) :: ' ' ::
          [siUnits.getD (k + 8).toNat ' ']) = none := by
      rw [show (if m < 0 then (['-'] : List Char) else []) ++ d :: I2 ++
          '.' :: digitChar (N % 100 / 10) :: digitChar (N % 100 % 10) :: ' ' ::
            [siUnits.getD (k + 8).toNat ' '] =
          ((if m < 0 then (['-'] : List Char) else []) ++ d :: I2 ++
          '.' :: digitChar (N % 100 / 10) :: digitChar (N % 100 % 10) :: [' ']) ++
            [siUnits.getD (k + 8).toNat ' '] from by simp [List.append_assoc]]
      exact runRe_m1_none_of_last hu_nd hu_ns
    have hpf : pyFloat (((if m < 0 then (['-'] : List Char) else []) ++ d :: I2) ++
        ['.', digitChar (N % 100 / 10), digitChar (N % 100 % 10)]) =
        some ((if (if m < 0 then (['-'] : List Char) else []) = ['-']
            then (-1 : ℚ) else 1) *
          ((digitsVal (d :: I2) : ℚ) +
            (digitsVal [digitChar (N % 100 / 10), digitChar (N % 100 % 10)] : ℚ) / 100)) := by
      have h := pyFloat_rendered (w := ([] : List Char)) hsgn2 hd hI2d hc1 hc2
        (by intro c hc; simp at hc)
      rw [show ((if m < 0 then (['-'] : List Char) else []) ++ d :: I2 ++
          '.' :: digitChar (N % 100 / 10) :: digitChar (N % 100 % 10) :: []) ++ [] =
          ((if m < 0 then (['-'] : List Char) else []) ++ d :: I2) ++
          ['.', digitChar (N % 100 / 10), digitChar (N % 100 % 10)] from by
        simp [List.append_assoc]] at h
      exact h
    unfold si_parse
    rw [show (String.mk ((if m < 0 then (['-'] : List Char) else []) ++ d :: I2 ++
        '.' :: digitChar (N % 100 / 10) :: digitChar (N % 100 % 10) :: ' ' ::
          [siUnits.getD (k + 8).toNat ' '])).data =
        (if m < 0 then (['-'] : List Char) else []) ++ d :: I2 ++
        '.' :: digitChar (N % 100 / 10) :: digitChar (N % 100 % 10) :: ' ' ::
          [siUnits.getD (k + 8).toNat ' '] from rfl]
    rw [hnone]
    rw [m2_first_rendered hsgn2 hd hI2d hc1 hc2 hu_si hu_nd hu_ns]
    simp only [Option.isSome_some, Bool.true_or, if_true, g2number, Option.getD_some]
    rw [hpf]
    have hE : (3 : ℤ) * ((List.indexOf (siUnits.getD (k + 8).toNat ' ') siUnits : ℤ) -
        (prefixLevels : ℤ)) = (split v).2 := by
      rw [hu_idx, prefixLevels_eq, hk]
      push_cast
      ring
    rw [hE, hvalq]

/-- C2 amended: for every value within prefix range (split exponent
between −24 and 24) whose split mantissa satisfies the normalization lower
bound `1 ≤ |m|` (all values except those with `0.1 < |v| < 1`, see C1),
parsing the default-template rendering recovers the value within 1 %
relative error. -/
theorem C2_amended_roundtrip :
    ∀ v : ℚ, v ≠ 0 → 1 ≤ |(split v).1| → -24 ≤ (split v).2 →
      (split v).2 ≤ 24 →
      ∃ q, si_parse (si_format v) = .ok q ∧ |q - v| ≤ |v| / 100 := by
  intro v hv hm hlo hhi
  refine ⟨_, si_parse_si_format v hv hm hlo hhi, ?_⟩
  set m := (split v).1 with hmdef
  set e := (split v).2 with hedef
  set N := (rhe (|m| * 100)).toNat with hNdef
  have hprod : m * 10 ^ e = v := split_prod v
  have hrb := rhe_bound (|m| * 100)
  have hNq : (N : ℚ) = ((rhe (|m| * 100) : ℤ) : ℚ) := by
    rw [hNdef]
    have h0 := Int.toNat_of_nonneg (rhe_nonneg (by positivity : (0 : ℚ) ≤ |m| * 100))
    exact_mod_cast congrArg (fun z : ℤ => (z : ℚ)) h0
  have habs100 : |(100 : ℚ)| = 100 := by norm_num
  have hclose : |(if m < 0 then (-1 : ℚ) else 1) * ((N : ℚ) / 100) - m| ≤ 1 / 200 := by
    by_cases hneg : m < 0
    · rw [if_pos hneg]
      have habs : |m| = -m := abs_of_neg hneg
      have h1 : (-1 : ℚ) * ((N : ℚ) / 100) - m = -(((N : ℚ) - |m| * 100) / 100) := by
        rw [habs]
        ring
      rw [h1, abs_neg, abs_div, habs100, hNq]
      linarith [hrb]
    · rw [if_neg hneg]
      have habs : |m| = m := abs_of_nonneg (not_lt.mp hneg)
      have h1 : (1 : ℚ) * ((N : ℚ) / 100) - m = ((N : ℚ) - |m| * 100) / 100 := by
        rw [habs]
        ring
      rw [h1, abs_div, habs100, hNq]
      linarith [hrb]
  have herr := roundtrip_err (m := m)
    (q := (if m < 0 then (-1 : ℚ) else 1) * ((N : ℚ) / 100)) e hm hclose
  rw [hprod] at herr
  exact herr

/-- C2 amended, witness: the round trip at `v = 6946.03` (rendered
`"6.95 k"`, parsed back as `6950`). -/
theorem C2_amended_roundtrip_witness :
    ∃ q, si_parse (si_format (694603 / 100 : ℚ)) = .ok q ∧
      |q - 694603 / 100| ≤ |(694603 / 100 : ℚ)| / 100 :=
  C2_amended_roundtrip (694603 / 100) (by norm_num) (by decide!) (by decide!)
    (by decide!)

end SiPrefix
